import Mathlib

/-!
# Verification of the sion-backend grid path planner

This file is a shallow embedding, in Lean 4, of the path-planning core of the
`sion-backend` repository, together with theorems settling the specification
claims about it.  Two implementations are embedded:

* `algorithms/astar.go` — the discrete grid A* (`Grid.FindPath`), working on
  integer grid cells with a string-keyed obstacle set, a linear-scan open
  list, g-score bookkeeping, and `math.Sqrt2` diagonal costs;
* `services/pathfinding.go` — the continuous-variant planner
  (`PathFinder.FindPath`), working on world coordinates converted to grid
  cells, with a binary heap keyed on `f`, circular obstacles with a `0.3`
  safety margin, a `1.414` diagonal cost, and a Douglas–Peucker
  simplification pass (`simplifyPath`) with tolerance `0.5` applied inside
  `reconstructPath`.

Modelling conventions:

* Go `float64` arithmetic is idealised as exact arithmetic.  Every numeric
  value the two planners compute is of the form `a + b·√2 + √m` with
  `a b m : ℚ` (g-scores are sums of the move costs `1`, `√2` and `1.414`;
  h-scores are Euclidean square roots of rational squared distances).  Such
  values are represented exactly by their coordinates (structures `G2`,
  `F3` below), and the float comparisons performed by the Go code are
  implemented by decision procedures (`q2Pos`, `fLtB`, …) that are *proved*
  to agree with the corresponding comparison of real numbers
  (`q2Pos_iff`, `fLtB_iff`, …).  This keeps every embedded function
  computable, so concrete runs can be evaluated by `decide`, while the
  bridge lemmas guarantee the comparisons mean exactly what the source's
  float comparisons mean.
* Loops that are not structurally recursive (`for len(openList) > 0 { … }`,
  and the Douglas–Peucker recursion, which genuinely diverges for a
  negative tolerance) take a fuel parameter; running out of fuel yields
  `none`, the same value as an exhausted search, and divergence of the
  simplifier is represented by propagating `none` through an `Option`.
* Grid cells are `Int × Int`; the spec's planning inputs are grid cells.
  Go maps keyed by coordinates are modelled as association lists whose
  lookup takes the most recent binding, and the obstacle set of a `Grid`
  as the list of added cells.
-/

namespace Sion

/-! ## Exact representation of the numeric values computed by the planners

`G2 a b` stands for the real number `a + b·√2` (every g-score).
`F3 a b m` stands for the real number `a + b·√2 + √m` (every f-score:
a g-score plus a Euclidean heuristic `√m`). -/

/-- A g-score: the real value `a + b·√2`. -/
structure G2 where
  a : ℚ
  b : ℚ
  deriving DecidableEq, Repr

/-- An f-score: the real value `a + b·√2 + √m` (`m` is the squared
Euclidean heuristic distance, always nonnegative in the algorithms). -/
structure F3 where
  a : ℚ
  b : ℚ
  m : ℚ
  deriving DecidableEq, Repr

noncomputable def G2.val (x : G2) : ℝ := (x.a : ℝ) + (x.b : ℝ) * Real.sqrt 2

noncomputable def F3.val (x : F3) : ℝ :=
  (x.a : ℝ) + (x.b : ℝ) * Real.sqrt 2 + Real.sqrt (x.m : ℝ)

/-- Decides `0 < c + d·√2` by sign analysis and squaring. -/
def q2Pos (c d : ℚ) : Bool :=
  if 0 ≤ c ∧ 0 ≤ d then decide (¬(c = 0 ∧ d = 0))
  else if c ≤ 0 ∧ d ≤ 0 then false
  else if 0 < c then decide (2 * d ^ 2 < c ^ 2)
  else decide (c ^ 2 < 2 * d ^ 2)

/-- Decides `c + d·√2 = 0`; by irrationality of `√2` this is `c = 0 ∧ d = 0`. -/
def q2Zero (c d : ℚ) : Bool :=
  decide (c = 0 ∧ d = 0)

/-- Decides `p1 + p2·√2 + 2·√k < 0` (for `0 ≤ k`). -/
def radNeg (p1 p2 k : ℚ) : Bool :=
  if q2Pos (-p1) (-p2) then q2Pos (p1 ^ 2 + 2 * p2 ^ 2 - 4 * k) (2 * p1 * p2)
  else false

/-- Decides `0 < p1 + p2·√2 + 2·√k` (for `0 ≤ k`). -/
def radPos (p1 p2 k : ℚ) : Bool :=
  if q2Pos p1 p2 then true
  else if q2Zero p1 p2 then decide (0 < k)
  else q2Pos (4 * k - p1 ^ 2 - 2 * p2 ^ 2) (-(2 * p1 * p2))

/-- Decides `x.val < y.val` for f-scores: exactly the comparison the Go code
performs on the `f` fields (floats), here carried out symbolically. -/
def fLtB (x y : F3) : Bool :=
  if q2Zero (x.a - y.a) (x.b - y.b) then decide (x.m < y.m)
  else if q2Pos (x.a - y.a) (x.b - y.b) then
    if x.m < y.m then
      radNeg ((x.a - y.a) ^ 2 + 2 * (x.b - y.b) ^ 2 - (x.m + y.m))
        (2 * (x.a - y.a) * (x.b - y.b)) (x.m * y.m)
    else false
  else
    if x.m ≤ y.m then true
    else
      radPos ((x.a - y.a) ^ 2 + 2 * (x.b - y.b) ^ 2 - (x.m + y.m))
        (2 * (x.a - y.a) * (x.b - y.b)) (x.m * y.m)

/-- Decides `x.val < y.val` for g-scores (the Go comparison
`tentativeG >= existingG` is its negation). -/
def gLtB (x y : G2) : Bool :=
  q2Pos (y.a - x.a) (y.b - x.b)

/-! ## Embedding of `algorithms/astar.go` (discrete grid A*)

Points are grid cells `Int × Int` (the planner's points hold integer grid
coordinates; the spec's planning inputs are grid cells).  The Go
`map[string]bool` obstacle table keyed by `"x,y"` is modelled as the list
of added cells; `gScores` / `closedSet` maps are association lists whose
lookup takes the most recent binding, exactly a Go map's semantics for
integer-valued keys. -/

namespace Astar

/-- `algorithms.Point`, restricted to the integer grid coordinates the
planner operates on. -/
abbrev Point := Int × Int

/-- `algorithms.Grid`. `obstacles` is the set of cells added by
`AddObstacle`. -/
structure Grid where
  width : Int
  height : Int
  obstacles : List Point

/-- `Grid.IsObstacle`. -/
def Grid.IsObstacle (g : Grid) (x y : Int) : Bool :=
  decide ((x, y) ∈ g.obstacles)

/-- `Grid.IsValid`: inside `[0,width) × [0,height)` and not an obstacle. -/
def Grid.IsValid (g : Grid) (x y : Int) : Bool :=
  if x < 0 ∨ y < 0 ∨ x ≥ g.width ∨ y ≥ g.height then false
  else !g.IsObstacle x y

/-- `heuristic` returns `√((a.x−b.x)² + (a.y−b.y)²)`; we carry the radicand
(the squared Euclidean distance), the square root being applied through the
`F3`/`fLtB` representation. -/
def heuristicSq (a b : Point) : ℚ :=
  ((a.1 - b.1 : ℤ) : ℚ) ^ 2 + ((a.2 - b.2 : ℤ) : ℚ) ^ 2

/-- The 8 neighbor offsets, in source order. -/
def directions : List (Int × Int) :=
  [(0, 1), (1, 0), (0, -1), (-1, 0), (1, 1), (1, -1), (-1, -1), (-1, 1)]

/-- `Grid.GetNeighbors`: the valid cells one offset away, in source order. -/
def Grid.GetNeighbors (g : Grid) (current : Point) : List Point :=
  (directions.filter fun d => g.IsValid (current.1 + d.1) (current.2 + d.2)).map
    fun d => (current.1 + d.1, current.2 + d.2)

/-- `algorithms.Node`: a point with g/h/f scores and a parent pointer
(`root` is a node with `Parent == nil`, `child` one with a parent).
`hsq` carries the radicand of the stored `H` (so `H = √hsq`), and `f`
represents `G + H` exactly. -/
inductive Node : Type where
  | root : Point → G2 → ℚ → F3 → Node
  | child : Point → G2 → ℚ → F3 → Node → Node

def Node.point : Node → Point
  | .root p _ _ _ => p
  | .child p _ _ _ _ => p

def Node.g : Node → G2
  | .root _ gv _ _ => gv
  | .child _ gv _ _ _ => gv

def Node.hsq : Node → ℚ
  | .root _ _ h _ => h
  | .child _ _ h _ _ => h

def Node.f : Node → F3
  | .root _ _ _ f => f
  | .child _ _ _ f _ => f

/-- The `Parent` pointer (`nil` for a root node). -/
def Node.parent : Node → Option Node
  | .root _ _ _ _ => none
  | .child _ _ _ _ par => some par

instance : Inhabited Node :=
  ⟨Node.root (0, 0) ⟨0, 0⟩ 0 ⟨0, 0, 0⟩⟩

/-- Addition of g-scores (`a + b·√2` values add componentwise). -/
def G2.add (x y : G2) : G2 :=
  ⟨x.a + y.a, x.b + y.b⟩

/-- `F = G + H` where `H = √hsq`: exact representation of the sum. -/
def fOf (gv : G2) (hsq : ℚ) : F3 :=
  ⟨gv.a, gv.b, hsq⟩

/-- The move cost of lines 122–125: `1.0`, or `math.Sqrt2` when both
coordinates change (diagonal step). -/
def moveCost (current neighbor : Point) : G2 :=
  if current.1 ≠ neighbor.1 ∧ current.2 ≠ neighbor.2 then ⟨0, 1⟩ else ⟨1, 0⟩

/-- `gScores` map (`map[string]float64` keyed by the point). -/
abbrev GScores := List (Point × G2)

def lookupG : GScores → Point → Option G2
  | [], _ => none
  | (k, v) :: rest, p => if k = p then some v else lookupG rest p

/-- `reconstructPath`: follow parent pointers, prepending each point. -/
def reconstructPath : Node → List Point
  | .root p _ _ _ => [p]
  | .child p _ _ _ par => reconstructPath par ++ [p]

/-- The linear scan of lines 101–106: index of the first node with minimal
`F` (strictly smaller `F` replaces the current index). -/
def scanMin : List Node → Nat → Nat → F3 → Nat
  | [], _, curIdx, _ => curIdx
  | n :: rest, i, curIdx, curF =>
    if fLtB n.f curF then scanMin rest (i + 1) i n.f
    else scanMin rest (i + 1) curIdx curF

def currentIndexOf : List Node → Nat
  | [] => 0
  | n :: rest => scanMin rest 1 0 n.f

/-- The skip test of line 128: `ok && tentativeG >= existingG`. -/
def shouldSkip (gs : GScores) (neighbor : Point) (t : G2) : Bool :=
  match lookupG gs neighbor with
  | some e => !gLtB t e
  | none => false

/-- The node built on lines 132–138 (parent set to `current`). -/
def mkNeighborNode (goal : Point) (current : Node) (neighbor : Point) (t : G2) : Node :=
  Node.child neighbor t (heuristicSq neighbor goal) (fOf t (heuristicSq neighbor goal))
    current

/-- The body of the neighbor loop (lines 116–142) for one neighbor, acting
on the pair (gScores, openList); `G2.add current.g (moveCost …)` is the
line-126 `tentativeG`. -/
def processNeighbor (goal : Point) (current : Node) (closedSet : List Point)
    (st : GScores × List Node) (neighbor : Point) : GScores × List Node :=
  if neighbor ∈ closedSet then st
  else if shouldSkip st.1 neighbor (G2.add current.g (moveCost current.point neighbor)) then st
  else ((neighbor, G2.add current.g (moveCost current.point neighbor)) :: st.1,
    st.2 ++ [mkNeighborNode goal current neighbor
      (G2.add current.g (moveCost current.point neighbor))])

def processNeighbors (g : Grid) (goal : Point) (current : Node)
    (closedSet : List Point) (st : GScores × List Node) : GScores × List Node :=
  (g.GetNeighbors current.point).foldl (processNeighbor goal current closedSet) st

/-- The main loop (lines 99–143).  `fuel` bounds the number of iterations;
both an exhausted open list and exhausted fuel yield `none` (the Go loop
returns `nil` when the open list empties; the fuel is an upper bound a
concrete run is checked against). -/
def loop (g : Grid) (goal : Point) :
    Nat → List Node → List Point → GScores → Option (List Point)
  | 0, _, _, _ => none
  | fuel + 1, openList, closedSet, gScores =>
    match openList with
    | [] => none
    | n0 :: rest =>
      let ci := currentIndexOf (n0 :: rest)
      let current := (n0 :: rest).getD ci default
      if current.point = goal then some (reconstructPath current)
      else
        let openList' := (n0 :: rest).eraseIdx ci
        let closedSet' := current.point :: closedSet
        let st := processNeighbors g goal current closedSet' (gScores, openList')
        loop g goal fuel st.2 closedSet' st.1

/-- `Grid.FindPath` (lines 78–145). -/
def Grid.FindPath (g : Grid) (start goal : Point) (fuel : Nat) : Option (List Point) :=
  if start = goal then some [start]
  else if g.IsObstacle goal.1 goal.2 then none
  else
    loop g goal fuel
      [Node.root start ⟨0, 0⟩ (heuristicSq start goal) (fOf ⟨0, 0⟩ (heuristicSq start goal))]
      [] [(start, ⟨0, 0⟩)]

/-- Grid-adjacency: the step between consecutive waypoints is one of the 8
neighbor offsets. -/
def adj (p q : Point) : Prop :=
  (q.1 - p.1, q.2 - p.2) ∈ directions

instance (p q : Point) : Decidable (adj p q) := by
  unfold adj
  infer_instance

/-- Well-formedness of a search node: its parent chain starts at `start`,
every link is an 8-neighbor step, and every point after the root is a valid
(in-bounds, unblocked) cell. -/
def NodeChain (g : Grid) (start : Point) : Node → Prop
  | .root p _ _ _ => p = start
  | .child p _ _ _ par =>
    adj par.point p ∧ g.IsValid p.1 p.2 = true ∧ NodeChain g start par

end Astar

/-! ## Embedding of `services/pathfinding.go` (continuous-variant planner)

World coordinates are exact rationals.  The square roots computed by
`perpendicularDistance`, `isObstacle` and `heuristic` are represented by
their radicands; the comparisons the source performs on them are decided
by comparing squares (`sqrtGtQ`, `sqrtLtQ`), with bridge lemmas proving
agreement with the real-number comparisons. -/

namespace Svc

/-- `models.PositionData` (only `X`,`Y` are used by the planner). -/
abbrev QPt := ℚ × ℚ

/-- Go `int(v)` conversion: truncation toward zero. -/
def ratTrunc (q : ℚ) : ℤ :=
  q.num.tdiv q.den

/-- Decides `√dSq > eps` for `0 ≤ dSq` (the source compares the float
square root; squaring is order-preserving on nonnegatives). -/
def sqrtGtQ (dSq eps : ℚ) : Bool :=
  decide (eps < 0) || decide (eps ^ 2 < dSq)

/-- Decides `√dSq < c` for `0 ≤ dSq`. -/
def sqrtLtQ (dSq c : ℚ) : Bool :=
  decide (0 < c ∧ dSq < c ^ 2)

/-- `perpendicularDistance` (lines 240–261), squared: distance from `point`
to the segment `lineStart–lineEnd`, via the clamped projection parameter;
the source returns the square root of this value. -/
def perpendicularDistanceSq (point lineStart lineEnd : QPt) : ℚ :=
  if lineEnd.1 - lineStart.1 = 0 ∧ lineEnd.2 - lineStart.2 = 0 then
    (point.1 - lineStart.1) ^ 2 + (point.2 - lineStart.2) ^ 2
  else
    let dx := lineEnd.1 - lineStart.1
    let dy := lineEnd.2 - lineStart.2
    let t := ((point.1 - lineStart.1) * dx + (point.2 - lineStart.2) * dy) / (dx * dx + dy * dy)
    let t' := max 0 (min 1 t)
    (point.1 - (lineStart.1 + t' * dx)) ^ 2 + (point.2 - (lineStart.2 + t' * dy)) ^ 2

/-- The farthest-point scan of lines 218–227: over the interior points
(passed one by one), keep the first index attaining the maximal
(squared) distance; `i` is the index of the head of the remaining list,
`(idx, dmaxSq)` the best so far. -/
def scanFar (a b : QPt) : List QPt → Nat → Nat → ℚ → Nat × ℚ
  | [], _, idx, dmaxSq => (idx, dmaxSq)
  | p :: rest, i, idx, dmaxSq =>
    if dmaxSq < perpendicularDistanceSq p a b then
      scanFar a b rest (i + 1) i (perpendicularDistanceSq p a b)
    else scanFar a b rest (i + 1) idx dmaxSq

/-- `simplifyPath` (lines 213–237), Douglas–Peucker.  The recursion of the
source diverges when `ε < 0` on a degenerate split (`index = 0` keeps the
whole path); `fuel` bounds the recursion depth and `none` stands for
divergence (for `0 ≤ ε`, fuel `path.length` is proved sufficient). -/
def simplifyPathF : Nat → List QPt → ℚ → Option (List QPt)
  | 0, _, _ => none
  | fuel + 1, path, epsilon =>
    if path.length < 3 then some path
    else
      match scanFar (path.headD (0, 0)) (path.getLastD (0, 0)) (path.tail.dropLast) 1 0 0 with
      | (index, dmaxSq) =>
        if sqrtGtQ dmaxSq epsilon then
          match simplifyPathF fuel (path.take (index + 1)) epsilon,
              simplifyPathF fuel (path.drop index) epsilon with
          | some left, some right => some (left.dropLast ++ right)
          | _, _ => none
        else some [path.headD (0, 0), path.getLastD (0, 0)]

/-- Entry point: each recursive call strictly shortens the path whenever
the recursion is productive, so depth `path.length + 1` is sufficient fuel
(proved below for `0 ≤ ε`; for `ε < 0` a `none` result reflects genuine
divergence of the source). -/
def simplifyPath (path : List QPt) (epsilon : ℚ) : Option (List QPt) :=
  simplifyPathF (path.length + 1) path epsilon

/-- `models.Obstacle` (the fields the planner reads). -/
structure Obstacle where
  posX : ℚ
  posY : ℚ
  radius : ℚ

/-- `services.PathFinder`. -/
structure PathFinder where
  gridWidth : Int
  gridHeight : Int
  cellSize : ℚ
  obstacles : List Obstacle

/-- `services.Node`: grid cell, g/h/f scores and parent pointer.  `hsq` is
the radicand of the stored `h`; `f` represents `g + √hsq` exactly.  The
`index`, `worldX`, `worldY` fields of the source are written but never read
by the search (the heap works with positions, and `reconstructPath` uses
`x·cellSize`), so they are omitted. -/
inductive SNode : Type where
  | root : Int → Int → ℚ → ℚ → F3 → SNode
  | child : Int → Int → ℚ → ℚ → F3 → SNode → SNode

def SNode.x : SNode → Int
  | .root x _ _ _ _ => x
  | .child x _ _ _ _ _ => x

def SNode.y : SNode → Int
  | .root _ y _ _ _ => y
  | .child _ y _ _ _ _ => y

def SNode.g : SNode → ℚ
  | .root _ _ g _ _ => g
  | .child _ _ g _ _ _ => g

def SNode.hsq : SNode → ℚ
  | .root _ _ _ h _ => h
  | .child _ _ _ h _ _ => h

def SNode.f : SNode → F3
  | .root _ _ _ _ f => f
  | .child _ _ _ _ f _ => f

def SNode.parent : SNode → Option SNode
  | .root _ _ _ _ _ => none
  | .child _ _ _ _ _ par => some par

instance : Inhabited SNode :=
  ⟨SNode.root 0 0 0 0 ⟨0, 0, 0⟩⟩

/-- `worldToGrid` (lines 143–153): the grid cell, by float-to-int
truncation of `coordinate / cellSize`. -/
def worldToGrid (pf : PathFinder) (x y : ℚ) : Int × Int :=
  (ratTrunc (x / pf.cellSize), ratTrunc (y / pf.cellSize))

/-- `isValid` (lines 155–158). -/
def isValid (pf : PathFinder) (x y : Int) : Bool :=
  decide (x ≥ 0 ∧ x < pf.gridWidth ∧ y ≥ 0 ∧ y < pf.gridHeight)

/-- `isObstacle` (lines 160–176): some obstacle's center is at Euclidean
distance `< radius + 0.3` from the cell's world point
`(x·cellSize, y·cellSize)`. -/
def isObstacle (pf : PathFinder) (x y : Int) : Bool :=
  pf.obstacles.any fun obs =>
    sqrtLtQ (((x : ℚ) * pf.cellSize - obs.posX) ^ 2 + ((y : ℚ) * pf.cellSize - obs.posY) ^ 2)
      (obs.radius + 3 / 10)

/-- `heuristic` (lines 178–183), squared (the source stores its square
root). -/
def heuristicSq (x1 y1 x2 y2 : Int) : ℚ :=
  ((x2 - x1 : ℤ) : ℚ) ^ 2 + ((y2 - y1 : ℤ) : ℚ) ^ 2

/-- `getDirections` (lines 185–191), in source order. -/
def svcDirections : List (Int × Int) :=
  [(0, 1), (1, 0), (0, -1), (-1, 0), (1, 1), (1, -1), (-1, 1), (-1, -1)]

/-- The move cost of lines 120–124: `1.0`, or the literal `1.414` when both
components of the direction are nonzero. -/
def svcMoveCost (dir : Int × Int) : ℚ :=
  if dir.1 ≠ 0 ∧ dir.2 ≠ 0 then 1414 / 1000 else 1

/-! The `container/heap` operations used through `PriorityQueue`
(`Less` compares `f` fields; `Swap`'s `index` writes are dropped with the
omitted field). -/

def sLess (l : List SNode) (i j : Nat) : Bool :=
  fLtB (l.getD i default).f (l.getD j default).f

def lswap (l : List SNode) (i j : Nat) : List SNode :=
  match l.get? i, l.get? j with
  | some a, some b => (l.set i b).set j a
  | _, _ => l

/-- `up` from `container/heap` (sift toward the root; `(j-1)/2` is the Go
parent index, which equals `j` exactly at the root since Go integer
division truncates `(0-1)/2` to `0`). -/
def heapUp (l : List SNode) (j : Nat) : List SNode :=
  if j = 0 then l
  else if !sLess l j ((j - 1) / 2) then l
  else heapUp (lswap l ((j - 1) / 2) j) ((j - 1) / 2)
termination_by j
decreasing_by omega

/-- `down` from `container/heap` (sift toward the leaves, among the first
`n` elements). -/
def heapDown (l : List SNode) (i n : Nat) : List SNode :=
  if 2 * i + 1 ≥ n then l
  else
    let j := if 2 * i + 2 < n ∧ sLess l (2 * i + 2) (2 * i + 1) then 2 * i + 2 else 2 * i + 1
    if !sLess l j i then l
    else heapDown (lswap l i j) j n
termination_by n - i
decreasing_by
  have hj : j = if 2 * i + 2 < n ∧ sLess l (2 * i + 2) (2 * i + 1) then 2 * i + 2
      else 2 * i + 1 := rfl
  split_ifs at hj <;> omega

/-- `heap.Push`: append, then sift up from the last position. -/
def heapPush (l : List SNode) (x : SNode) : List SNode :=
  heapUp (l ++ [x]) l.length

/-- `heap.Pop`: swap the root with the last element, sift down over the
first `n-1` positions, then remove and return the last element. -/
def heapPop (l : List SNode) : Option (SNode × List SNode) :=
  match l with
  | [] => none
  | _ :: _ =>
    match (heapDown (lswap l 0 (l.length - 1)) 0 (l.length - 1)).getLast? with
    | none => none
    | some last => some (last, (heapDown (lswap l 0 (l.length - 1)) 0 (l.length - 1)).dropLast)

/-- The pre-simplification path of `reconstructPath` (lines 194–207):
world points `(x·cellSize, y·cellSize)` along the parent chain. -/
def rawPath (cs : ℚ) : SNode → List QPt
  | .root x y _ _ _ => [((x : ℚ) * cs, (y : ℚ) * cs)]
  | .child x y _ _ _ par => rawPath cs par ++ [((x : ℚ) * cs, (y : ℚ) * cs)]

/-- `reconstructPath` (lines 194–210): the parent-chain path, passed
unconditionally through `simplifyPath` with tolerance `0.5`. -/
def reconstructPath (cs : ℚ) (n : SNode) : Option (List QPt) :=
  simplifyPath (rawPath cs n) (1 / 2)

/-- The body of the direction loop (lines 108–136) for one direction:
skip invalid/blocked/closed neighbors, otherwise compute `tentativeG` and
push a new node (the source keeps no recorded costs: every surviving
neighbor is pushed). -/
def processDir (pf : PathFinder) (goalCell : Int × Int) (current : SNode)
    (closed : List (Int × Int)) (openSet : List SNode) (dir : Int × Int) : List SNode :=
  if !isValid pf (current.x + dir.1) (current.y + dir.2) ||
      isObstacle pf (current.x + dir.1) (current.y + dir.2) then openSet
  else if (current.x + dir.1, current.y + dir.2) ∈ closed then openSet
  else
    heapPush openSet
      (SNode.child (worldToGrid pf ((current.x + dir.1 : ℤ) * pf.cellSize)
          ((current.y + dir.2 : ℤ) * pf.cellSize)).1
        (worldToGrid pf ((current.x + dir.1 : ℤ) * pf.cellSize)
          ((current.y + dir.2 : ℤ) * pf.cellSize)).2
        (current.g + svcMoveCost dir)
        (heuristicSq (current.x + dir.1) (current.y + dir.2) goalCell.1 goalCell.2)
        ⟨current.g + svcMoveCost dir, 0,
          heuristicSq (current.x + dir.1) (current.y + dir.2) goalCell.1 goalCell.2⟩
        current)

/-- The main loop (lines 96–137).  `none` covers both "no path" (open set
exhausted), fuel exhaustion, and divergence of the final simplification. -/
def svcLoop (pf : PathFinder) (goalCell : Int × Int) :
    Nat → List SNode → List (Int × Int) → Option (List QPt)
  | 0, _, _ => none
  | fuel + 1, openSet, closed =>
    match heapPop openSet with
    | none => none
    | some (current, openSet') =>
      if current.x = goalCell.1 ∧ current.y = goalCell.2 then
        reconstructPath pf.cellSize current
      else
        svcLoop pf goalCell fuel
          (svcDirections.foldl
            (processDir pf goalCell current ((current.x, current.y) :: closed))
            openSet')
          ((current.x, current.y) :: closed)

/-- `PathFinder.FindPath` (lines 70–141). -/
def PathFinder.FindPath (pf : PathFinder) (start goal : QPt) (fuel : Nat) :
    Option (List QPt) :=
  if !isValid pf (worldToGrid pf start.1 start.2).1 (worldToGrid pf start.1 start.2).2 ||
      !isValid pf (worldToGrid pf goal.1 goal.2).1 (worldToGrid pf goal.1 goal.2).2 then
    none
  else if isObstacle pf (worldToGrid pf start.1 start.2).1 (worldToGrid pf start.1 start.2).2 ||
      isObstacle pf (worldToGrid pf goal.1 goal.2).1 (worldToGrid pf goal.1 goal.2).2 then
    none
  else
    svcLoop pf (worldToGrid pf goal.1 goal.2) fuel
      (heapPush []
        (SNode.root (worldToGrid pf start.1 start.2).1 (worldToGrid pf start.1 start.2).2 0
          (heuristicSq (worldToGrid pf start.1 start.2).1 (worldToGrid pf start.1 start.2).2
            (worldToGrid pf goal.1 goal.2).1 (worldToGrid pf goal.1 goal.2).2)
          ⟨0, 0,
            heuristicSq (worldToGrid pf start.1 start.2).1 (worldToGrid pf start.1 start.2).2
              (worldToGrid pf goal.1 goal.2).1 (worldToGrid pf goal.1 goal.2).2⟩))
      []

end Svc

/-! ### Correctness of the comparison procedures -/

theorem sqrt_two_sq : Real.sqrt 2 * Real.sqrt 2 = 2 :=
  Real.mul_self_sqrt (by norm_num)

theorem sq_lt_sq_iff_nonneg {a b : ℝ} (ha : 0 ≤ a) (hb : 0 ≤ b) :
    a ^ 2 < b ^ 2 ↔ a < b := by
  constructor
  · intro h
    by_contra hab
    push_neg at hab
    nlinarith
  · intro h
    nlinarith

theorem q2Pos_iff (c d : ℚ) : q2Pos c d = true ↔ 0 < (c : ℝ) + d * Real.sqrt 2 := by
  have s2pos : 0 < Real.sqrt 2 := Real.sqrt_pos.mpr (by norm_num)
  have s2sq := sqrt_two_sq
  unfold q2Pos
  split_ifs with h1 h2 h3
  · obtain ⟨hc, hd⟩ := h1
    constructor
    · intro h
      simp only [decide_eq_true_eq] at h
      rcases (not_and_or.mp h) with hc0 | hd0
      · have : (0 : ℝ) < c := by exact_mod_cast lt_of_le_of_ne hc (Ne.symm hc0)
        have : 0 ≤ (d : ℝ) * Real.sqrt 2 := by
          apply mul_nonneg _ (le_of_lt s2pos)
          exact_mod_cast hd
        linarith
      · have hd' : (0 : ℝ) < d := by exact_mod_cast lt_of_le_of_ne hd (Ne.symm hd0)
        have : 0 < (d : ℝ) * Real.sqrt 2 := mul_pos hd' s2pos
        have : 0 ≤ (c : ℝ) := by exact_mod_cast hc
        linarith
    · intro h
      simp only [decide_eq_true_eq]
      rintro ⟨hc0, hd0⟩
      subst hc0; subst hd0
      norm_num at h
  · obtain ⟨hc, hd⟩ := h2
    simp only [false_iff, not_lt]
    have h1' : 0 ≤ (-d : ℝ) * Real.sqrt 2 := by
      apply mul_nonneg _ (le_of_lt s2pos)
      rw [neg_nonneg]
      exact_mod_cast hd
    have hc' : (c : ℝ) ≤ 0 := by exact_mod_cast hc
    nlinarith
  · -- 0 < c, and (from ¬h1, ¬h2) d < 0
    have hd : d < 0 := by
      rcases not_and_or.mp h1 with h | h
      · exact absurd (le_of_lt h3) h
      · exact lt_of_not_le h
    have hd' : (0 : ℝ) < -d := by
      rw [neg_pos]
      exact_mod_cast hd
    have hc' : (0 : ℝ) < c := by exact_mod_cast h3
    simp only [decide_eq_true_eq]
    have key : ((-d : ℝ) * Real.sqrt 2) ^ 2 < (c : ℝ) ^ 2 ↔
        (-d : ℝ) * Real.sqrt 2 < c :=
      sq_lt_sq_iff_nonneg (le_of_lt (mul_pos hd' s2pos)) (le_of_lt hc')
    constructor
    · intro h
      have h' : (2 : ℝ) * d ^ 2 < c ^ 2 := by exact_mod_cast h
      have : ((-d : ℝ) * Real.sqrt 2) ^ 2 < (c : ℝ) ^ 2 := by nlinarith
      have := key.mp this
      nlinarith
    · intro h
      have : (-d : ℝ) * Real.sqrt 2 < c := by nlinarith
      have := key.mpr this
      have h2' : (2 : ℝ) * d ^ 2 < c ^ 2 := by nlinarith
      exact_mod_cast h2'
  · -- c ≤ 0 (¬ 0 < c) and 0 < d
    push_neg at h3
    have hd : 0 < d := by
      rcases not_and_or.mp h2 with h | h
      · exact absurd h3 h
      · exact lt_of_not_le h
    have hd' : (0 : ℝ) < d := by exact_mod_cast hd
    have hc' : (0 : ℝ) ≤ -c := by
      rw [neg_nonneg]
      exact_mod_cast h3
    simp only [decide_eq_true_eq]
    have key : (-c : ℝ) ^ 2 < ((d : ℝ) * Real.sqrt 2) ^ 2 ↔
        (-c : ℝ) < (d : ℝ) * Real.sqrt 2 :=
      sq_lt_sq_iff_nonneg hc' (le_of_lt (mul_pos hd' s2pos))
    constructor
    · intro h
      have h' : (c : ℝ) ^ 2 < 2 * d ^ 2 := by exact_mod_cast h
      have : (-c : ℝ) ^ 2 < ((d : ℝ) * Real.sqrt 2) ^ 2 := by nlinarith
      have := key.mp this
      linarith
    · intro h
      have : (-c : ℝ) < (d : ℝ) * Real.sqrt 2 := by linarith
      have := key.mpr this
      have h2' : (c : ℝ) ^ 2 < 2 * d ^ 2 := by nlinarith
      exact_mod_cast h2'

theorem q2Zero_iff (c d : ℚ) : q2Zero c d = true ↔ (c : ℝ) + d * Real.sqrt 2 = 0 := by
  unfold q2Zero
  simp only [decide_eq_true_eq]
  constructor
  · rintro ⟨hc, hd⟩
    subst hc; subst hd
    norm_num
  · intro h
    by_cases hd : d = 0
    · subst hd
      norm_num at h
      exact ⟨by exact_mod_cast h, rfl⟩
    · exfalso
      have hd' : (d : ℝ) ≠ 0 := by exact_mod_cast hd
      have : Real.sqrt 2 = ((-c / d : ℚ) : ℝ) := by
        push_cast
        field_simp
        linarith [h]
      exact (Rat.not_irrational (-c / d)) (this ▸ irrational_sqrt_two)

theorem q2_neg_of_not (c d : ℚ) (hz : ¬q2Zero c d = true) (hp : ¬q2Pos c d = true) :
    (c : ℝ) + d * Real.sqrt 2 < 0 := by
  rcases lt_trichotomy ((c : ℝ) + d * Real.sqrt 2) 0 with h | h | h
  · exact h
  · exact absurd ((q2Zero_iff c d).mpr h) hz
  · exact absurd ((q2Pos_iff c d).mpr h) hp

theorem gLtB_iff (x y : G2) : gLtB x y = true ↔ x.val < y.val := by
  unfold gLtB G2.val
  rw [q2Pos_iff]
  push_cast
  constructor <;> intro h <;> nlinarith [h]

theorem radNeg_iff (p1 p2 k : ℚ) (hk : 0 ≤ k) :
    radNeg p1 p2 k = true ↔
      (p1 : ℝ) + p2 * Real.sqrt 2 + 2 * Real.sqrt k < 0 := by
  have sknn : 0 ≤ Real.sqrt (k : ℝ) := Real.sqrt_nonneg _
  have sksq : Real.sqrt (k : ℝ) * Real.sqrt (k : ℝ) = (k : ℝ) :=
    Real.mul_self_sqrt (by exact_mod_cast hk)
  have s2sq := sqrt_two_sq
  unfold radNeg
  split_ifs with hP
  · -- P < 0 (where P = p1 + p2√2)
    have hPneg : (p1 : ℝ) + p2 * Real.sqrt 2 < 0 := by
      have := (q2Pos_iff (-p1) (-p2)).mp hP
      push_cast at this
      linarith
    rw [q2Pos_iff]
    have key : (2 * Real.sqrt (k : ℝ)) ^ 2 < (-((p1 : ℝ) + p2 * Real.sqrt 2)) ^ 2 ↔
        2 * Real.sqrt (k : ℝ) < -((p1 : ℝ) + p2 * Real.sqrt 2) :=
      sq_lt_sq_iff_nonneg (by linarith) (by linarith)
    constructor
    · intro h
      push_cast at h
      have hsq : (2 * Real.sqrt (k : ℝ)) ^ 2 < (-((p1 : ℝ) + p2 * Real.sqrt 2)) ^ 2 := by
        nlinarith
      have := key.mp hsq
      linarith
    · intro h
      have : 2 * Real.sqrt (k : ℝ) < -((p1 : ℝ) + p2 * Real.sqrt 2) := by linarith
      have hsq := key.mpr this
      push_cast
      nlinarith
  · -- P ≥ 0: the sum cannot be negative
    have hPnn : 0 ≤ (p1 : ℝ) + p2 * Real.sqrt 2 := by
      by_contra hneg
      push_neg at hneg
      exact hP ((q2Pos_iff (-p1) (-p2)).mpr (by push_cast; linarith))
    simp only [false_iff, not_lt]
    linarith

theorem radPos_iff (p1 p2 k : ℚ) (hk : 0 ≤ k) :
    radPos p1 p2 k = true ↔
      (0 : ℝ) < (p1 : ℝ) + p2 * Real.sqrt 2 + 2 * Real.sqrt k := by
  have sknn : 0 ≤ Real.sqrt (k : ℝ) := Real.sqrt_nonneg _
  have sksq : Real.sqrt (k : ℝ) * Real.sqrt (k : ℝ) = (k : ℝ) :=
    Real.mul_self_sqrt (by exact_mod_cast hk)
  have s2sq := sqrt_two_sq
  unfold radPos
  split_ifs with hP hz
  · -- P > 0
    have := (q2Pos_iff p1 p2).mp hP
    simp only [true_iff]
    linarith
  · -- P = 0
    have hP0 := (q2Zero_iff p1 p2).mp hz
    rw [hP0]
    simp only [decide_eq_true_eq, zero_add]
    constructor
    · intro h
      have : (0 : ℝ) < k := by exact_mod_cast h
      have := Real.sqrt_pos.mpr this
      linarith
    · intro h
      have : 0 < Real.sqrt (k : ℝ) := by linarith
      have := Real.sqrt_pos.mp this
      exact_mod_cast this
  · -- P < 0
    have hPneg : (p1 : ℝ) + p2 * Real.sqrt 2 < 0 := q2_neg_of_not _ _ hz hP
    rw [q2Pos_iff]
    have key : (-((p1 : ℝ) + p2 * Real.sqrt 2)) ^ 2 < (2 * Real.sqrt (k : ℝ)) ^ 2 ↔
        -((p1 : ℝ) + p2 * Real.sqrt 2) < 2 * Real.sqrt (k : ℝ) :=
      sq_lt_sq_iff_nonneg (by linarith) (by linarith)
    constructor
    · intro h
      push_cast at h
      have hsq : (-((p1 : ℝ) + p2 * Real.sqrt 2)) ^ 2 < (2 * Real.sqrt (k : ℝ)) ^ 2 := by
        nlinarith
      have := key.mp hsq
      linarith
    · intro h
      have : -((p1 : ℝ) + p2 * Real.sqrt 2) < 2 * Real.sqrt (k : ℝ) := by linarith
      have hsq := key.mpr this
      push_cast
      nlinarith

/-- Comparing square roots of nonnegative rationals. -/
theorem sqrtQ_lt_sqrtQ_iff {u v : ℚ} (hu : 0 ≤ u) :
    Real.sqrt (u : ℝ) < Real.sqrt (v : ℝ) ↔ u < v := by
  constructor
  · intro h
    by_contra hc
    push_neg at hc
    have : Real.sqrt (v : ℝ) ≤ Real.sqrt (u : ℝ) :=
      Real.sqrt_le_sqrt (by exact_mod_cast hc)
    linarith
  · intro h
    exact Real.sqrt_lt_sqrt (by exact_mod_cast hu) (by exact_mod_cast h)

/-- The radical expressions fed to `radNeg`/`radPos` inside `fLtB` equal
`A² − B²`, where `A = c + d·√2` and `B = √ym − √xm`. -/
theorem rad_ident (c d xm ym : ℚ) (hx : 0 ≤ xm) (hy : 0 ≤ ym) :
    ((c ^ 2 + 2 * d ^ 2 - (xm + ym) : ℚ) : ℝ) +
        ((2 * c * d : ℚ) : ℝ) * Real.sqrt 2 +
        2 * Real.sqrt ((xm * ym : ℚ) : ℝ) =
      ((c : ℝ) + (d : ℝ) * Real.sqrt 2) ^ 2 -
        (Real.sqrt (ym : ℝ) - Real.sqrt (xm : ℝ)) ^ 2 := by
  have sxsq : Real.sqrt (xm : ℝ) * Real.sqrt (xm : ℝ) = (xm : ℝ) :=
    Real.mul_self_sqrt (by exact_mod_cast hx)
  have sysq : Real.sqrt (ym : ℝ) * Real.sqrt (ym : ℝ) = (ym : ℝ) :=
    Real.mul_self_sqrt (by exact_mod_cast hy)
  have s2sq := sqrt_two_sq
  have sqrtmul : Real.sqrt ((xm * ym : ℚ) : ℝ) =
      Real.sqrt (xm : ℝ) * Real.sqrt (ym : ℝ) := by
    push_cast
    rw [Real.sqrt_mul (by exact_mod_cast hx)]
  rw [sqrtmul]
  push_cast
  linear_combination (-((d : ℝ)) ^ 2) * s2sq + sysq + sxsq

theorem fLtB_iff (x y : F3) (hx : 0 ≤ x.m) (hy : 0 ≤ y.m) :
    fLtB x y = true ↔ x.val < y.val := by
  have sxnn : 0 ≤ Real.sqrt (x.m : ℝ) := Real.sqrt_nonneg _
  have synn : 0 ≤ Real.sqrt (y.m : ℝ) := Real.sqrt_nonneg _
  have hknn : (0 : ℚ) ≤ x.m * y.m := mul_nonneg hx hy
  have hval : x.val < y.val ↔
      (((x.a - y.a : ℚ) : ℝ) + ((x.b - y.b : ℚ) : ℝ) * Real.sqrt 2 <
        Real.sqrt (y.m : ℝ) - Real.sqrt (x.m : ℝ)) := by
    unfold F3.val
    push_cast
    constructor <;> intro h <;> linarith
  rw [hval]
  have ident := rad_ident (x.a - y.a) (x.b - y.b) x.m y.m hx hy
  unfold fLtB
  split_ifs with hz hp hm hm'
  · -- A = 0: the comparison reduces to x.m < y.m
    have hA := (q2Zero_iff _ _).mp hz
    simp only [decide_eq_true_eq]
    constructor
    · intro h
      have := (sqrtQ_lt_sqrtQ_iff hx).mpr h
      linarith
    · intro h
      exact (sqrtQ_lt_sqrtQ_iff hx).mp (by linarith)
  · -- A > 0 and x.m < y.m: square both sides
    have hA := (q2Pos_iff _ _).mp hp
    have hB : 0 < Real.sqrt (y.m : ℝ) - Real.sqrt (x.m : ℝ) := by
      have := (sqrtQ_lt_sqrtQ_iff hx).mpr hm
      linarith
    rw [radNeg_iff _ _ _ hknn]
    have key := sq_lt_sq_iff_nonneg (le_of_lt hA) (le_of_lt hB)
    constructor
    · intro h
      exact key.mp (by linarith)
    · intro h
      have := key.mpr h
      linarith
  · -- A > 0 and y.m ≤ x.m: B ≤ 0 < A, so never A < B
    have hA := (q2Pos_iff _ _).mp hp
    push_neg at hm
    have hB : Real.sqrt (y.m : ℝ) - Real.sqrt (x.m : ℝ) ≤ 0 := by
      have : Real.sqrt (y.m : ℝ) ≤ Real.sqrt (x.m : ℝ) :=
        Real.sqrt_le_sqrt (by exact_mod_cast hm)
      linarith
    simp only [false_iff, not_lt]
    linarith
  · -- A < 0 and x.m ≤ y.m: 0 ≤ B, so always A < B
    have hA := q2_neg_of_not _ _ hz hp
    have hB : 0 ≤ Real.sqrt (y.m : ℝ) - Real.sqrt (x.m : ℝ) := by
      have : Real.sqrt (x.m : ℝ) ≤ Real.sqrt (y.m : ℝ) :=
        Real.sqrt_le_sqrt (by exact_mod_cast hm')
      linarith
    simp only [true_iff]
    linarith
  · -- A < 0 and y.m < x.m: both negative, square with flipped order
    have hA := q2_neg_of_not _ _ hz hp
    push_neg at hm'
    have hB : Real.sqrt (y.m : ℝ) - Real.sqrt (x.m : ℝ) < 0 := by
      have := (sqrtQ_lt_sqrtQ_iff hy).mpr hm'
      linarith
    rw [radPos_iff _ _ _ hknn]
    have key := sq_lt_sq_iff_nonneg (a := -(Real.sqrt (y.m : ℝ) - Real.sqrt (x.m : ℝ)))
      (b := -(((x.a - y.a : ℚ) : ℝ) + ((x.b - y.b : ℚ) : ℝ) * Real.sqrt 2))
      (by linarith) (by linarith)
    rw [neg_sq, neg_sq, neg_lt_neg_iff] at key
    constructor
    · intro h
      exact key.mp (by linarith)
    · intro h
      have := key.mpr h
      linarith

/-! ### Structural lemmas about the grid A* -/

namespace Astar

theorem scanMin_lt (rest : List Node) :
    ∀ i curIdx curF, curIdx < i → scanMin rest i curIdx curF < i + rest.length := by
  induction rest with
  | nil =>
    intro i c f h
    simp only [scanMin, List.length_nil]
    omega
  | cons n rest ih =>
    intro i c f h
    simp only [scanMin, List.length_cons]
    split_ifs with hlt
    · have := ih (i + 1) i n.f (by omega)
      omega
    · have := ih (i + 1) c f (by omega)
      omega

theorem currentIndexOf_lt (n0 : Node) (rest : List Node) :
    currentIndexOf (n0 :: rest) < (n0 :: rest).length := by
  simp only [currentIndexOf, List.length_cons]
  have := scanMin_lt rest 1 0 n0.f (by omega)
  omega

theorem getD_mem (l : List Node) (i : Nat) (h : i < l.length) :
    l.getD i default ∈ l := by
  rw [List.getD_eq_getElem l default h]
  exact List.getElem_mem h

theorem getNeighbors_mem (g : Grid) (cur p : Point) (h : p ∈ g.GetNeighbors cur) :
    adj cur p ∧ g.IsValid p.1 p.2 = true := by
  unfold Grid.GetNeighbors at h
  simp only [List.mem_map, List.mem_filter] at h
  obtain ⟨d, ⟨hd, hval⟩, rfl⟩ := h
  refine ⟨?_, hval⟩
  unfold adj
  have hdd : (cur.1 + d.1 - cur.1, cur.2 + d.2 - cur.2) = d := by
    cases d with
    | mk dx dy => simp only [Prod.mk.injEq]; omega
  simpa [hdd] using hd

theorem isValid_not_obstacle (g : Grid) (x y : Int) (h : g.IsValid x y = true) :
    g.IsObstacle x y = false := by
  unfold Grid.IsValid at h
  split_ifs at h
  simpa using h

theorem processNeighbor_chain (g : Grid) (s goal : Point) (current : Node)
    (closed : List Point) (st : GScores × List Node) (nbr : Point)
    (hcur : NodeChain g s current) (hst : ∀ n ∈ st.2, NodeChain g s n)
    (hnbr : nbr ∈ g.GetNeighbors current.point) :
    ∀ n ∈ (processNeighbor goal current closed st nbr).2, NodeChain g s n := by
  unfold processNeighbor
  split_ifs with h1 h2
  · exact hst
  · exact hst
  · intro n hn
    simp only [List.mem_append, List.mem_singleton] at hn
    rcases hn with hn | rfl
    · exact hst n hn
    · obtain ⟨hadj, hvalid⟩ := getNeighbors_mem g current.point nbr hnbr
      exact ⟨hadj, hvalid, hcur⟩

theorem foldl_processNeighbor_chain (g : Grid) (s goal : Point) (current : Node)
    (closed : List Point) (hcur : NodeChain g s current) :
    ∀ (L : List Point) (st : GScores × List Node),
      (∀ x ∈ L, x ∈ g.GetNeighbors current.point) →
      (∀ n ∈ st.2, NodeChain g s n) →
      ∀ n ∈ (L.foldl (processNeighbor goal current closed) st).2, NodeChain g s n := by
  intro L
  induction L with
  | nil =>
    intro st _ hst
    simpa using hst
  | cons x L ih =>
    intro st hL hst
    simp only [List.foldl_cons]
    exact ih _ (fun y hy => hL y (List.mem_cons_of_mem _ hy))
      (processNeighbor_chain g s goal current closed st x hcur hst
        (hL x (List.mem_cons_self _ _)))

theorem reconstruct_spec (g : Grid) (s : Point) :
    ∀ n : Node, NodeChain g s n →
      (reconstructPath n).head? = some s ∧
      (reconstructPath n).getLast? = some n.point ∧
      List.Chain' adj (reconstructPath n) ∧
      ∀ q ∈ (reconstructPath n).tail, g.IsValid q.1 q.2 = true := by
  intro n
  induction n with
  | root p gv hq f =>
    intro hc
    simp only [NodeChain] at hc
    subst hc
    simp [reconstructPath, Node.point]
  | child p gv hq f par ih =>
    intro hc
    simp only [NodeChain] at hc
    obtain ⟨hadj, hval, hch⟩ := hc
    obtain ⟨ih1, ih2, ih3, ih4⟩ := ih hch
    cases hl : reconstructPath par with
    | nil => rw [hl] at ih1; cases ih1
    | cons a tl =>
      rw [hl] at ih1 ih2 ih3 ih4
      constructor
      · simpa [reconstructPath, hl] using ih1
      · constructor
        · show ((reconstructPath par) ++ [p]).getLast? = some (Node.point (.child p gv hq f par))
          rw [hl, List.getLast?_concat]
          simp [Node.point]
        · constructor
          · simp only [reconstructPath, hl]
            rw [List.chain'_append]
            refine ⟨ih3, List.chain'_singleton _, ?_⟩
            intro x hx y hy
            simp only [List.head?_cons, Option.mem_def, Option.some.injEq] at hy
            rw [ih2] at hx
            simp only [Option.mem_def, Option.some.injEq] at hx
            subst hx
            subst hy
            exact hadj
          · intro q hq2
            simp only [reconstructPath, hl, List.cons_append, List.tail_cons,
              List.mem_append, List.mem_singleton] at hq2
            rcases hq2 with hq2 | rfl
            · exact ih4 q (by simpa using hq2)
            · exact hval

theorem loop_valid (g : Grid) (s goal : Point) :
    ∀ (fuel : Nat) (openList : List Node) (closed : List Point) (gs : GScores),
      (∀ n ∈ openList, NodeChain g s n) →
      ∀ path, loop g goal fuel openList closed gs = some path →
        path.head? = some s ∧ List.Chain' adj path ∧
        ∀ q ∈ path.tail, g.IsValid q.1 q.2 = true := by
  intro fuel
  induction fuel with
  | zero =>
    intro _ _ _ path _ h
    simp [loop] at h
  | succ fuel ih =>
    intro openList closed gs hopen path h
    cases openList with
    | nil => simp [loop] at h
    | cons n0 rest =>
      simp only [loop] at h
      have hci := currentIndexOf_lt n0 rest
      have hmem := getD_mem (n0 :: rest) (currentIndexOf (n0 :: rest)) hci
      have hcur : NodeChain g s ((n0 :: rest).getD (currentIndexOf (n0 :: rest)) default) :=
        hopen _ hmem
      split at h
      · obtain rfl : _ = path := Option.some.inj h
        obtain ⟨h1, _, h3, h4⟩ := reconstruct_spec g s _ hcur
        exact ⟨h1, h3, h4⟩
      · refine ih _ _ _ ?_ path h
        apply foldl_processNeighbor_chain g s goal _ _ hcur _ _ (fun x hx => hx)
        intro n hn
        exact hopen n ((List.eraseIdx_sublist _ _).mem hn)

end Astar

/-! ### Bridges for the square-root comparisons of the continuous planner -/

theorem sqrtGtQ_iff (dSq eps : ℚ) :
    Svc.sqrtGtQ dSq eps = true ↔ (eps : ℝ) < Real.sqrt (dSq : ℝ) := by
  unfold Svc.sqrtGtQ
  simp only [Bool.or_eq_true, decide_eq_true_eq]
  rcases lt_or_le eps 0 with he | he
  · constructor
    · intro _
      have h1 : (eps : ℝ) < 0 := by exact_mod_cast he
      have := Real.sqrt_nonneg ((dSq : ℚ) : ℝ)
      linarith
    · intro _
      exact Or.inl he
  · constructor
    · rintro (h1 | h2)
      · exact absurd h1 (not_lt.mpr he)
      · exact (Real.lt_sqrt (by exact_mod_cast he)).mpr (by exact_mod_cast h2)
    · intro hlt
      exact Or.inr (by exact_mod_cast (Real.lt_sqrt (by exact_mod_cast he)).mp hlt)

theorem sqrtLtQ_iff (dSq c : ℚ) :
    Svc.sqrtLtQ dSq c = true ↔ Real.sqrt (dSq : ℝ) < (c : ℝ) := by
  unfold Svc.sqrtLtQ
  simp only [decide_eq_true_eq]
  rcases le_or_lt c 0 with hc | hc
  · constructor
    · rintro ⟨h1, _⟩
      exact absurd h1 (not_lt.mpr hc)
    · intro hlt
      have := Real.sqrt_nonneg ((dSq : ℚ) : ℝ)
      have hc' : (c : ℝ) ≤ 0 := by exact_mod_cast hc
      linarith
  · have hc' : (0 : ℝ) < c := by exact_mod_cast hc
    rw [Real.sqrt_lt' hc']
    constructor
    · rintro ⟨_, h2⟩
      exact_mod_cast h2
    · intro h2
      exact ⟨hc, by exact_mod_cast h2⟩

/-- **C10**: in the continuous planner, a grid cell `(x, y)` is considered
blocked if and only if some obstacle's center lies at Euclidean distance
strictly less than `radius + 0.3` from the single world point
`(x·cellSize, y·cellSize)` (no other point of the cell is tested). -/
theorem svc_isObstacle_iff (pf : Svc.PathFinder) (x y : Int) :
    Svc.isObstacle pf x y = true ↔
      ∃ obs ∈ pf.obstacles,
        Real.sqrt ((((x : ℚ) * pf.cellSize - obs.posX : ℚ) : ℝ) ^ 2 +
            (((y : ℚ) * pf.cellSize - obs.posY : ℚ) : ℝ) ^ 2) <
          (obs.radius : ℝ) + 3 / 10 := by
  unfold Svc.isObstacle
  rw [List.any_eq_true]
  have hrad : ∀ obs : Svc.Obstacle,
      ((((x : ℚ) * pf.cellSize - obs.posX) ^ 2 + ((y : ℚ) * pf.cellSize - obs.posY) ^ 2 : ℚ) : ℝ)
        = (((x : ℚ) * pf.cellSize - obs.posX : ℚ) : ℝ) ^ 2 +
            (((y : ℚ) * pf.cellSize - obs.posY : ℚ) : ℝ) ^ 2 := by
    intro obs
    push_cast
    ring
  have hc : ∀ obs : Svc.Obstacle,
      ((obs.radius + 3 / 10 : ℚ) : ℝ) = (obs.radius : ℝ) + 3 / 10 := by
    intro obs
    push_cast
    ring
  constructor
  · rintro ⟨obs, hmem, hobs⟩
    refine ⟨obs, hmem, ?_⟩
    have h2 := (sqrtLtQ_iff _ _).mp hobs
    rw [hrad obs, hc obs] at h2
    exact h2
  · rintro ⟨obs, hmem, hobs⟩
    refine ⟨obs, hmem, ?_⟩
    apply (sqrtLtQ_iff _ _).mpr
    rw [hrad obs, hc obs]
    exact hobs

/-- **C6** (counterexample): the continuous planner's diagonal move cost is
the literal `1.414`, and `1.414` is not `√2`. -/
theorem svc_diagonal_cost_not_sqrt2 :
    Svc.svcMoveCost (1, 1) = 1414 / 1000 ∧ ((1414 / 1000 : ℚ) : ℝ) ≠ Real.sqrt 2 := by
  constructor
  · norm_num [Svc.svcMoveCost]
  · intro hcontra
    have h2 : (((1414 : ℚ) / 1000 : ℚ) : ℝ) ^ 2 = 2 := by
      rw [hcontra]
      exact Real.sq_sqrt (by norm_num)
    norm_num at h2

/-- **C6** (amended): per expansion the grid A* adds move cost `1` for an
orthogonal and `√2` for a diagonal neighbor, while the continuous planner
adds `1` and the rational literal `1.414` (which is not `√2`). -/
theorem move_costs :
    (∀ cur nbr : Astar.Point,
      (Astar.moveCost cur nbr).val =
        if cur.1 ≠ nbr.1 ∧ cur.2 ≠ nbr.2 then Real.sqrt 2 else 1) ∧
    (∀ dir : Int × Int,
      Svc.svcMoveCost dir = if dir.1 ≠ 0 ∧ dir.2 ≠ 0 then 1414 / 1000 else 1) := by
  constructor
  · intro cur nbr
    unfold Astar.moveCost
    split_ifs
    · simp [G2.val]
    · simp [G2.val]
  · intro dir
    rfl

/-! ### Early returns and the start = goal case -/

namespace Svc

theorem heapPush_nil (x : SNode) : heapPush [] x = [x] := by
  unfold heapPush heapUp
  simp

theorem heapPop_singleton (x : SNode) : heapPop [x] = some (x, []) := by
  unfold heapPop
  simp only [List.length_cons, List.length_nil, Nat.zero_add, Nat.sub_self]
  have hsw : lswap [x] 0 0 = [x] := by
    unfold lswap
    simp
  rw [hsw]
  have hdown : heapDown [x] 0 0 = [x] := by
    unfold heapDown
    simp
  rw [hdown]
  simp

theorem invalid_fails (pf : PathFinder) (start goal : QPt) (fuel : Nat)
    (h : isValid pf (worldToGrid pf start.1 start.2).1 (worldToGrid pf start.1 start.2).2 = false ∨
      isValid pf (worldToGrid pf goal.1 goal.2).1 (worldToGrid pf goal.1 goal.2).2 = false) :
    PathFinder.FindPath pf start goal fuel = none := by
  unfold PathFinder.FindPath
  rcases h with h | h <;> simp [h]

theorem blocked_fails (pf : PathFinder) (start goal : QPt) (fuel : Nat)
    (h : isObstacle pf (worldToGrid pf start.1 start.2).1 (worldToGrid pf start.1 start.2).2 = true ∨
      isObstacle pf (worldToGrid pf goal.1 goal.2).1 (worldToGrid pf goal.1 goal.2).2 = true) :
    PathFinder.FindPath pf start goal fuel = none := by
  unfold PathFinder.FindPath
  split_ifs with h1 h2
  · rfl
  · rfl
  · exfalso
    simp only [Bool.or_eq_true] at h2
    rcases h with h | h <;> exact h2 (by simp [h])

theorem self_path (pf : PathFinder) (p : QPt) (fuel : Nat)
    (hv : isValid pf (worldToGrid pf p.1 p.2).1 (worldToGrid pf p.1 p.2).2 = true)
    (hb : isObstacle pf (worldToGrid pf p.1 p.2).1 (worldToGrid pf p.1 p.2).2 = false) :
    PathFinder.FindPath pf p p (fuel + 1) =
      some [(((worldToGrid pf p.1 p.2).1 : ℚ) * pf.cellSize,
        ((worldToGrid pf p.1 p.2).2 : ℚ) * pf.cellSize)] := by
  unfold PathFinder.FindPath
  rw [if_neg (by simp [hv]), if_neg (by simp [hb])]
  rw [heapPush_nil]
  simp only [svcLoop, heapPop_singleton]
  rw [if_pos (by simp [SNode.x, SNode.y])]
  unfold reconstructPath rawPath simplifyPath
  simp [simplifyPathF]

end Svc

/-- **C2** (amended): the grid A* rejects a planning call (returns no path,
with no reason string) when the goal cell is blocked and start ≠ goal, but
does not check the start cell; the continuous planner rejects the call
before searching when either endpoint's cell is blocked. -/
theorem endpoint_blocked_fails :
    (∀ (g : Astar.Grid) (s t : Astar.Point) (fuel : Nat), s ≠ t →
      g.IsObstacle t.1 t.2 = true → Astar.Grid.FindPath g s t fuel = none) ∧
    (∀ (pf : Svc.PathFinder) (start goal : Svc.QPt) (fuel : Nat),
      Svc.isObstacle pf (Svc.worldToGrid pf start.1 start.2).1
          (Svc.worldToGrid pf start.1 start.2).2 = true ∨
        Svc.isObstacle pf (Svc.worldToGrid pf goal.1 goal.2).1
          (Svc.worldToGrid pf goal.1 goal.2).2 = true →
      Svc.PathFinder.FindPath pf start goal fuel = none) := by
  constructor
  · intro g s t fuel hne hobs
    unfold Astar.Grid.FindPath
    rw [if_neg hne, if_pos hobs]
  · intro pf start goal fuel h
    exact Svc.blocked_fails pf start goal fuel h

/-- **C3** (amended): the continuous planner rejects a planning call before
searching when either endpoint's grid cell is out of
`[0, width) × [0, height)`; the grid A* performs no bounds check on its
endpoints at all. -/
theorem endpoint_out_of_bounds_fails
    (pf : Svc.PathFinder) (start goal : Svc.QPt) (fuel : Nat)
    (h : Svc.isValid pf (Svc.worldToGrid pf start.1 start.2).1
        (Svc.worldToGrid pf start.1 start.2).2 = false ∨
      Svc.isValid pf (Svc.worldToGrid pf goal.1 goal.2).1
        (Svc.worldToGrid pf goal.1 goal.2).2 = false) :
    Svc.PathFinder.FindPath pf start goal fuel = none :=
  Svc.invalid_fails pf start goal fuel h

/-- **C3** (counterexample): the grid A* happily returns a path for an
out-of-bounds start = goal pair — `(5,5)` on a `1 × 1` grid — instead of
failing with an out-of-bounds reason. -/
theorem astar_oob_single_point_path :
    Astar.Grid.FindPath ⟨1, 1, []⟩ (5, 5) (5, 5) 1 = some [(5, 5)] ∧
    Astar.Grid.IsValid ⟨1, 1, []⟩ 5 5 = false := by
  constructor
  · rfl
  · rfl

/-- **C4** (amended): the grid A* returns the single-point path immediately
whenever start = goal, bypassing the blocked check; the continuous planner
does not bypass it — with start = goal it returns the single cell-center
point only when the shared cell is in bounds and unblocked, and fails when
that cell is blocked. -/
theorem start_eq_goal_single_point :
    (∀ (g : Astar.Grid) (s : Astar.Point) (fuel : Nat),
      Astar.Grid.FindPath g s s fuel = some [s]) ∧
    (∀ (pf : Svc.PathFinder) (p : Svc.QPt) (fuel : Nat),
      Svc.isObstacle pf (Svc.worldToGrid pf p.1 p.2).1
        (Svc.worldToGrid pf p.1 p.2).2 = true →
      Svc.PathFinder.FindPath pf p p fuel = none) ∧
    (∀ (pf : Svc.PathFinder) (p : Svc.QPt) (fuel : Nat),
      Svc.isValid pf (Svc.worldToGrid pf p.1 p.2).1 (Svc.worldToGrid pf p.1 p.2).2 = true →
      Svc.isObstacle pf (Svc.worldToGrid pf p.1 p.2).1
        (Svc.worldToGrid pf p.1 p.2).2 = false →
      Svc.PathFinder.FindPath pf p p (fuel + 1) =
        some [(((Svc.worldToGrid pf p.1 p.2).1 : ℚ) * pf.cellSize,
          ((Svc.worldToGrid pf p.1 p.2).2 : ℚ) * pf.cellSize)]) := by
  refine ⟨?_, ?_, ?_⟩
  · intro g s fuel
    unfold Astar.Grid.FindPath
    simp
  · intro pf p fuel h
    exact Svc.blocked_fails pf p p fuel (Or.inl h)
  · intro pf p fuel hv hb
    exact Svc.self_path pf p fuel hv hb

/-! ### Validity of returned grid paths (C1, C2, C5) -/

/-- **C1** (amended): every path the grid A* returns starts at the start
cell, consecutive waypoints differ by exactly one of the 8 neighbor offsets,
and no waypoint except possibly the first — the start cell, which
`FindPath` never validates — lies on a blocked cell. -/
theorem astar_returned_path_valid (g : Astar.Grid) (s t : Astar.Point) (fuel : Nat)
    (path : List Astar.Point) (h : Astar.Grid.FindPath g s t fuel = some path) :
    path.head? = some s ∧ List.Chain' Astar.adj path ∧
    ∀ q ∈ path.tail, g.IsObstacle q.1 q.2 = false := by
  unfold Astar.Grid.FindPath at h
  by_cases h1 : s = t
  case pos =>
    rw [if_pos h1] at h
    obtain rfl : [s] = path := Option.some.inj h
    subst h1
    refine ⟨rfl, List.chain'_singleton _, ?_⟩
    intro q hq
    simp at hq
  case neg =>
  rw [if_neg h1] at h
  by_cases h2 : g.IsObstacle t.1 t.2 = true
  case pos =>
    rw [if_pos h2] at h
    exact Option.noConfusion h
  case neg =>
  rw [if_neg h2] at h
  have hopen : ∀ n ∈ [Astar.Node.root s ⟨0, 0⟩ (Astar.heuristicSq s t)
      (Astar.fOf ⟨0, 0⟩ (Astar.heuristicSq s t))], Astar.NodeChain g s n := by
    intro n hn
    simp only [List.mem_singleton] at hn
    subst hn
    rfl
  obtain ⟨hh, hc, hv⟩ := Astar.loop_valid g s t fuel _ [] _ hopen path h
  exact ⟨hh, hc, fun q hq => Astar.isValid_not_obstacle g q.1 q.2 (hv q hq)⟩

/-- **C1** (counterexample): with the start cell `(0,0)` blocked on a `2 × 1`
grid, the grid A* still returns the path `[(0,0), (1,0)]`, whose first
waypoint lies on a blocked cell — refuting "no waypoint of the path lies on
a blocked cell". -/
theorem astar_path_through_blocked_start :
    Astar.Grid.FindPath ⟨2, 1, [(0, 0)]⟩ (0, 0) (1, 0) 3 = some [(0, 0), (1, 0)] ∧
    Astar.Grid.IsObstacle ⟨2, 1, [(0, 0)]⟩ 0 0 = true := by
  constructor
  · simp +decide [Astar.Grid.FindPath, Astar.loop, Astar.currentIndexOf, Astar.scanMin,
      Astar.processNeighbors, Astar.processNeighbor, Astar.shouldSkip, Astar.lookupG,
      Astar.mkNeighborNode, Astar.reconstructPath, Astar.Grid.GetNeighbors, Astar.Grid.IsValid,
      Astar.Grid.IsObstacle, Astar.directions, Astar.heuristicSq, Astar.moveCost, Astar.G2.add,
      Astar.fOf, fLtB, q2Pos, q2Zero, radNeg, radPos, gLtB, Astar.Node.point, Astar.Node.g,
      Astar.Node.f, Astar.Node.hsq, Astar.Node.parent, List.getD]
  · decide

theorem astar_returned_path_valid_witness :
    Astar.Grid.FindPath ⟨2, 1, []⟩ (0, 0) (1, 0) 3 = some [(0, 0), (1, 0)] ∧
    (([(0, 0), (1, 0)] : List Astar.Point).head? = some (0, 0) ∧
      List.Chain' Astar.adj [(0, 0), (1, 0)] ∧
      ∀ q ∈ ([(0, 0), (1, 0)] : List Astar.Point).tail,
        Astar.Grid.IsObstacle ⟨2, 1, []⟩ q.1 q.2 = false) := by
  have h : Astar.Grid.FindPath ⟨2, 1, []⟩ (0, 0) (1, 0) 3 = some [(0, 0), (1, 0)] := by
    simp +decide [Astar.Grid.FindPath, Astar.loop, Astar.currentIndexOf, Astar.scanMin,
      Astar.processNeighbors, Astar.processNeighbor, Astar.shouldSkip, Astar.lookupG,
      Astar.mkNeighborNode, Astar.reconstructPath, Astar.Grid.GetNeighbors, Astar.Grid.IsValid,
      Astar.Grid.IsObstacle, Astar.directions, Astar.heuristicSq, Astar.moveCost, Astar.G2.add,
      Astar.fOf, fLtB, q2Pos, q2Zero, radNeg, radPos, gLtB, Astar.Node.point, Astar.Node.g,
      Astar.Node.f, Astar.Node.hsq, Astar.Node.parent, List.getD]
  exact ⟨h, astar_returned_path_valid _ _ _ _ _ h⟩

/-- **C2** (counterexample): the grid A* does not reject a blocked *start*
cell: with `(0,0)` blocked on a `3 × 1` grid it searches anyway and returns
`[(0,0), (1,0), (2,0)]`, instead of failing before any search. -/
theorem astar_blocked_start_not_rejected :
    Astar.Grid.IsObstacle ⟨3, 1, [(0, 0)]⟩ 0 0 = true ∧
    Astar.Grid.FindPath ⟨3, 1, [(0, 0)]⟩ (0, 0) (2, 0) 4 =
      some [(0, 0), (1, 0), (2, 0)] := by
  constructor
  · decide
  · simp +decide [Astar.Grid.FindPath, Astar.loop, Astar.currentIndexOf, Astar.scanMin,
      Astar.processNeighbors, Astar.processNeighbor, Astar.shouldSkip, Astar.lookupG,
      Astar.mkNeighborNode, Astar.reconstructPath, Astar.Grid.GetNeighbors, Astar.Grid.IsValid,
      Astar.Grid.IsObstacle, Astar.directions, Astar.heuristicSq, Astar.moveCost, Astar.G2.add,
      Astar.fOf, fLtB, q2Pos, q2Zero, radNeg, radPos, gLtB, Astar.Node.point, Astar.Node.g,
      Astar.Node.f, Astar.Node.hsq, Astar.Node.parent, List.getD]

theorem endpoint_blocked_fails_witness :
    ((0, 0) : Astar.Point) ≠ (0, 1) ∧
    Astar.Grid.IsObstacle ⟨1, 2, [(0, 1)]⟩ 0 1 = true ∧
    Astar.Grid.FindPath ⟨1, 2, [(0, 1)]⟩ (0, 0) (0, 1) 5 = none ∧
    Svc.isObstacle ⟨5, 5, 1, [⟨0, 0, 1 / 2⟩]⟩
      (Svc.worldToGrid ⟨5, 5, 1, [⟨0, 0, 1 / 2⟩]⟩ 0 0).1
      (Svc.worldToGrid ⟨5, 5, 1, [⟨0, 0, 1 / 2⟩]⟩ 0 0).2 = true ∧
    Svc.PathFinder.FindPath ⟨5, 5, 1, [⟨0, 0, 1 / 2⟩]⟩ (0, 0) (2, 2) 30 = none := by
  have h1 : ((0, 0) : Astar.Point) ≠ (0, 1) := by decide
  have h2 : Astar.Grid.IsObstacle ⟨1, 2, [(0, 1)]⟩ 0 1 = true := by decide
  have h4 : Svc.isObstacle ⟨5, 5, 1, [⟨0, 0, 1 / 2⟩]⟩
      (Svc.worldToGrid ⟨5, 5, 1, [⟨0, 0, 1 / 2⟩]⟩ 0 0).1
      (Svc.worldToGrid ⟨5, 5, 1, [⟨0, 0, 1 / 2⟩]⟩ 0 0).2 = true := by
    norm_num [Svc.isObstacle, Svc.sqrtLtQ, Svc.worldToGrid, Svc.ratTrunc]
  exact ⟨h1, h2, endpoint_blocked_fails.1 _ _ _ 5 h1 h2, h4,
    endpoint_blocked_fails.2 _ _ _ 30 (Or.inl h4)⟩

/-- **C5**: during an expansion of the grid A*, a neighbor that is not
closed and already has a recorded g-score is pushed — with its g, h, f and
predecessor set and its score re-recorded — exactly when the tentative cost
through the current node is strictly lower than the recorded cost, and the
state is left unchanged otherwise. -/
theorem astar_insert_iff_lower_cost (goal : Astar.Point) (current : Astar.Node)
    (closed : List Astar.Point) (st : Astar.GScores × List Astar.Node)
    (nbr : Astar.Point) (eg : G2)
    (hnc : nbr ∉ closed) (hrec : Astar.lookupG st.1 nbr = some eg) :
    ((Astar.G2.add current.g (Astar.moveCost current.point nbr)).val < eg.val →
      Astar.processNeighbor goal current closed st nbr =
        ((nbr, Astar.G2.add current.g (Astar.moveCost current.point nbr)) :: st.1,
          st.2 ++ [Astar.Node.child nbr (Astar.G2.add current.g (Astar.moveCost current.point nbr))
            (Astar.heuristicSq nbr goal)
            (Astar.fOf (Astar.G2.add current.g (Astar.moveCost current.point nbr))
              (Astar.heuristicSq nbr goal)) current])) ∧
    (eg.val ≤ (Astar.G2.add current.g (Astar.moveCost current.point nbr)).val →
      Astar.processNeighbor goal current closed st nbr = st) := by
  unfold Astar.processNeighbor
  rw [if_neg hnc]
  constructor
  · intro hlt
    have hg : gLtB (Astar.G2.add current.g (Astar.moveCost current.point nbr)) eg = true :=
      (gLtB_iff _ _).mpr hlt
    have hss : Astar.shouldSkip st.1 nbr
        (Astar.G2.add current.g (Astar.moveCost current.point nbr)) = false := by
      unfold Astar.shouldSkip
      rw [hrec]
      simp [hg]
    rw [if_neg (by rw [hss]; simp)]
    rfl
  · intro hge
    have hg : gLtB (Astar.G2.add current.g (Astar.moveCost current.point nbr)) eg = false := by
      by_contra hc
      rw [Bool.not_eq_false] at hc
      have := (gLtB_iff _ _).mp hc
      linarith
    have hss : Astar.shouldSkip st.1 nbr
        (Astar.G2.add current.g (Astar.moveCost current.point nbr)) = true := by
      unfold Astar.shouldSkip
      rw [hrec]
      simp [hg]
    rw [if_pos hss]

theorem astar_insert_iff_lower_cost_witness :
    ((1, 0) : Astar.Point) ∉ ([] : List Astar.Point) ∧
    Astar.lookupG [((1, 0), (⟨2, 0⟩ : G2))] (1, 0) = some ⟨2, 0⟩ ∧
    ((Astar.G2.add (Astar.Node.root (0, 0) ⟨0, 0⟩ 0 ⟨0, 0, 0⟩).g
        (Astar.moveCost (Astar.Node.root (0, 0) ⟨0, 0⟩ 0 ⟨0, 0, 0⟩).point (1, 0))).val <
      (⟨2, 0⟩ : G2).val ∧
    Astar.processNeighbor (1, 0) (Astar.Node.root (0, 0) ⟨0, 0⟩ 0 ⟨0, 0, 0⟩) []
        ([((1, 0), (⟨2, 0⟩ : G2))], []) (1, 0) =
      (((1, 0), Astar.G2.add (Astar.Node.root (0, 0) ⟨0, 0⟩ 0 ⟨0, 0, 0⟩).g
          (Astar.moveCost (Astar.Node.root (0, 0) ⟨0, 0⟩ 0 ⟨0, 0, 0⟩).point (1, 0))) ::
          [((1, 0), (⟨2, 0⟩ : G2))],
        [] ++ [Astar.Node.child (1, 0)
          (Astar.G2.add (Astar.Node.root (0, 0) ⟨0, 0⟩ 0 ⟨0, 0, 0⟩).g
            (Astar.moveCost (Astar.Node.root (0, 0) ⟨0, 0⟩ 0 ⟨0, 0, 0⟩).point (1, 0)))
          (Astar.heuristicSq (1, 0) (1, 0))
          (Astar.fOf (Astar.G2.add (Astar.Node.root (0, 0) ⟨0, 0⟩ 0 ⟨0, 0, 0⟩).g
            (Astar.moveCost (Astar.Node.root (0, 0) ⟨0, 0⟩ 0 ⟨0, 0, 0⟩).point (1, 0)))
            (Astar.heuristicSq (1, 0) (1, 0)))
          (Astar.Node.root (0, 0) ⟨0, 0⟩ 0 ⟨0, 0, 0⟩)])) := by
  have hnc : ((1, 0) : Astar.Point) ∉ ([] : List Astar.Point) := by decide
  have hrec : Astar.lookupG [((1, 0), (⟨2, 0⟩ : G2))] (1, 0) = some ⟨2, 0⟩ := by decide
  have hlt : (Astar.G2.add (Astar.Node.root (0, 0) ⟨0, 0⟩ 0 ⟨0, 0, 0⟩).g
      (Astar.moveCost (Astar.Node.root (0, 0) ⟨0, 0⟩ 0 ⟨0, 0, 0⟩).point (1, 0))).val <
      (⟨2, 0⟩ : G2).val := by
    norm_num [Astar.G2.add, Astar.moveCost, Astar.Node.g, Astar.Node.point, G2.val]
  exact ⟨hnc, hrec, hlt,
    (astar_insert_iff_lower_cost (1, 0) _ [] ([((1, 0), ⟨2, 0⟩)], []) (1, 0) ⟨2, 0⟩
      hnc hrec).1 hlt⟩

theorem endpoint_out_of_bounds_fails_witness :
    Svc.isValid ⟨5, 5, 1, []⟩ (Svc.worldToGrid ⟨5, 5, 1, []⟩ (-3) 0).1
      (Svc.worldToGrid ⟨5, 5, 1, []⟩ (-3) 0).2 = false ∧
    Svc.PathFinder.FindPath ⟨5, 5, 1, []⟩ (-3, 0) (2, 2) 30 = none := by
  have h : Svc.isValid ⟨5, 5, 1, []⟩ (Svc.worldToGrid ⟨5, 5, 1, []⟩ (-3) 0).1
      (Svc.worldToGrid ⟨5, 5, 1, []⟩ (-3) 0).2 = false := by
    norm_num [Svc.isValid, Svc.worldToGrid, Svc.ratTrunc]
  exact ⟨h, endpoint_out_of_bounds_fails _ _ _ 30 (Or.inl h)⟩

/-- **C4** (counterexample): the continuous planner does *not* bypass the
blocked check when start = goal: with an obstacle of radius `0.5` centered
on the shared cell it returns no path at all instead of a single-point
path. -/
theorem svc_blocked_start_goal_fails :
    Svc.isObstacle ⟨5, 5, 1, [⟨0, 0, 1 / 2⟩]⟩
      (Svc.worldToGrid ⟨5, 5, 1, [⟨0, 0, 1 / 2⟩]⟩ 0 0).1
      (Svc.worldToGrid ⟨5, 5, 1, [⟨0, 0, 1 / 2⟩]⟩ 0 0).2 = true ∧
    Svc.PathFinder.FindPath ⟨5, 5, 1, [⟨0, 0, 1 / 2⟩]⟩ (0, 0) (0, 0) 30 = none := by
  have h : Svc.isObstacle ⟨5, 5, 1, [⟨0, 0, 1 / 2⟩]⟩
      (Svc.worldToGrid ⟨5, 5, 1, [⟨0, 0, 1 / 2⟩]⟩ 0 0).1
      (Svc.worldToGrid ⟨5, 5, 1, [⟨0, 0, 1 / 2⟩]⟩ 0 0).2 = true := by
    norm_num [Svc.isObstacle, Svc.sqrtLtQ, Svc.worldToGrid, Svc.ratTrunc]
  exact ⟨h, Svc.blocked_fails _ _ _ 30 (Or.inl h)⟩

theorem start_eq_goal_single_point_witness :
    Svc.isValid ⟨5, 5, 1, []⟩ (Svc.worldToGrid ⟨5, 5, 1, []⟩ 0 0).1
      (Svc.worldToGrid ⟨5, 5, 1, []⟩ 0 0).2 = true ∧
    Svc.isObstacle ⟨5, 5, 1, []⟩ (Svc.worldToGrid ⟨5, 5, 1, []⟩ 0 0).1
      (Svc.worldToGrid ⟨5, 5, 1, []⟩ 0 0).2 = false ∧
    Svc.PathFinder.FindPath ⟨5, 5, 1, []⟩ (0, 0) (0, 0) 1 = some [(0, 0)] ∧
    Astar.Grid.FindPath ⟨1, 1, [(0, 0)]⟩ (0, 0) (0, 0) 7 = some [(0, 0)] := by
  have hv : Svc.isValid ⟨5, 5, 1, []⟩ (Svc.worldToGrid ⟨5, 5, 1, []⟩ 0 0).1
      (Svc.worldToGrid ⟨5, 5, 1, []⟩ 0 0).2 = true := by
    norm_num [Svc.isValid, Svc.worldToGrid, Svc.ratTrunc]
  have hb : Svc.isObstacle ⟨5, 5, 1, []⟩ (Svc.worldToGrid ⟨5, 5, 1, []⟩ 0 0).1
      (Svc.worldToGrid ⟨5, 5, 1, []⟩ 0 0).2 = false := by
    norm_num [Svc.isObstacle]
  have h3 := start_eq_goal_single_point.2.2 ⟨5, 5, 1, []⟩ (0, 0) 0 hv hb
  norm_num [Svc.worldToGrid, Svc.ratTrunc] at h3
  exact ⟨hv, hb, h3, start_eq_goal_single_point.1 ⟨1, 1, [(0, 0)]⟩ (0, 0) 7⟩

/-! ### The continuous planner returns simplified reconstructions (C9) -/

theorem svcLoop_success (pf : Svc.PathFinder) (gc : Int × Int) :
    ∀ (fuel : Nat) (openSet : List Svc.SNode) (closed : List (Int × Int))
      (path : List Svc.QPt),
      Svc.svcLoop pf gc fuel openSet closed = some path →
      ∃ n : Svc.SNode, n.x = gc.1 ∧ n.y = gc.2 ∧
        Svc.simplifyPath (Svc.rawPath pf.cellSize n) (1 / 2) = some path := by
  intro fuel
  induction fuel with
  | zero =>
    intro _ _ path h
    simp [Svc.svcLoop] at h
  | succ fuel ih =>
    intro openSet closed path h
    cases hpop : Svc.heapPop openSet with
    | none =>
      simp [Svc.svcLoop, hpop] at h
    | some pr =>
      simp only [Svc.svcLoop, hpop] at h
      split at h
      · next hgoal =>
        exact ⟨pr.1, hgoal.1, hgoal.2, h⟩
      · exact ih _ _ _ h

/-- **C9**: every successful call of the continuous planner returns exactly
the Douglas–Peucker simplification, with the fixed tolerance `ε = 0.5`, of
the raw parent-chain grid path of a node at the goal cell; the
simplification is applied unconditionally inside `reconstructPath`, whose
caller can neither obtain the raw path nor choose `ε`. -/
theorem svc_returns_simplified_path (pf : Svc.PathFinder) (start goal : Svc.QPt)
    (fuel : Nat) (path : List Svc.QPt)
    (h : Svc.PathFinder.FindPath pf start goal fuel = some path) :
    ∃ n : Svc.SNode, n.x = (Svc.worldToGrid pf goal.1 goal.2).1 ∧
      n.y = (Svc.worldToGrid pf goal.1 goal.2).2 ∧
      Svc.simplifyPath (Svc.rawPath pf.cellSize n) (1 / 2) = some path := by
  unfold Svc.PathFinder.FindPath at h
  split_ifs at h with h1 h2
  exact svcLoop_success pf _ fuel _ _ path h

theorem svc_returns_simplified_path_witness :
    Svc.PathFinder.FindPath ⟨5, 5, 1, []⟩ (0, 0) (0, 0) 1 = some [(0, 0)] ∧
    ∃ n : Svc.SNode, n.x = (Svc.worldToGrid ⟨5, 5, 1, []⟩ 0 0).1 ∧
      n.y = (Svc.worldToGrid ⟨5, 5, 1, []⟩ 0 0).2 ∧
      Svc.simplifyPath (Svc.rawPath (1 : ℚ) n) (1 / 2) = some [(0, 0)] := by
  have hv : Svc.isValid ⟨5, 5, 1, []⟩ (Svc.worldToGrid ⟨5, 5, 1, []⟩ 0 0).1
      (Svc.worldToGrid ⟨5, 5, 1, []⟩ 0 0).2 = true := by
    norm_num [Svc.isValid, Svc.worldToGrid, Svc.ratTrunc]
  have hb : Svc.isObstacle ⟨5, 5, 1, []⟩ (Svc.worldToGrid ⟨5, 5, 1, []⟩ 0 0).1
      (Svc.worldToGrid ⟨5, 5, 1, []⟩ 0 0).2 = false := by
    norm_num [Svc.isObstacle]
  have h := Svc.self_path ⟨5, 5, 1, []⟩ (0, 0) 0 hv hb
  norm_num [Svc.worldToGrid, Svc.ratTrunc] at h
  exact ⟨h, svc_returns_simplified_path ⟨5, 5, 1, []⟩ (0, 0) (0, 0) 1 [(0, 0)] h⟩

/-! ### Structure of the Douglas–Peucker simplifier (C7, C8) -/

theorem head?_headD {α : Type} (p : List α) (hp : p ≠ []) (x : α) :
    p.head? = some (p.headD x) := by
  cases p with
  | nil => exact absurd rfl hp
  | cons y ys => rfl

theorem getLast?_getLastD {α : Type} (p : List α) (hp : p ≠ []) (x : α) :
    p.getLast? = some (p.getLastD x) := by
  rw [List.getLast?_eq_getLast p hp, List.getLastD_eq_getLast?, List.getLast?_eq_getLast p hp]
  rfl

theorem head?_append_left {α : Type} (x y : List α) (hx : x ≠ []) :
    (x ++ y).head? = x.head? := by
  cases x with
  | nil => exact absurd rfl hx
  | cons a as => rfl

theorem head?_dropLast {α : Type} (x : List α) (hx : 2 ≤ x.length) :
    x.dropLast.head? = x.head? := by
  cases x with
  | nil => simp at hx
  | cons a as =>
    cases as with
    | nil => simp at hx
    | cons b bs => simp [List.dropLast_cons₂]

theorem head?_take {α : Type} (p : List α) (n : Nat) (hn : 0 < n) :
    (p.take n).head? = p.head? := by
  cases p with
  | nil => simp
  | cons a as =>
    cases n with
    | zero => omega
    | succ m => simp

theorem getLast?_append_right {α : Type} (x y : List α) (hy : y ≠ []) :
    (x ++ y).getLast? = y.getLast? := by
  conv_lhs => rw [← List.dropLast_append_getLast hy]
  rw [← List.append_assoc, List.getLast?_concat, List.getLast?_eq_getLast y hy]

theorem getLast?_drop {α : Type} (p : List α) :
    ∀ i, i < p.length → (p.drop i).getLast? = p.getLast? := by
  induction p with
  | nil => simp
  | cons x xs ih =>
    intro i hi
    cases i with
    | zero => simp
    | succ j =>
      simp only [List.drop_succ_cons]
      rw [ih j (by simpa using hi)]
      cases xs with
      | nil => simp at hi
      | cons b bs => simp [List.getLast?_cons_cons]

namespace Svc

theorem scanFar_lt (a b : QPt) :
    ∀ (L : List QPt) (i idx : Nat) (d : ℚ), idx < i →
      (scanFar a b L i idx d).1 < i + L.length := by
  intro L
  induction L with
  | nil =>
    intro i idx d h
    simp only [scanFar, List.length_nil]
    omega
  | cons p rest ih =>
    intro i idx d h
    simp only [scanFar, List.length_cons]
    split_ifs
    · have := ih (i + 1) i (perpendicularDistanceSq p a b) (by omega)
      omega
    · have := ih (i + 1) idx d (by omega)
      omega

theorem scanFar_stay_or_pos (a b : QPt) :
    ∀ (L : List QPt) (i idx : Nat) (d : ℚ), 0 < i →
      scanFar a b L i idx d = (idx, d) ∨ 0 < (scanFar a b L i idx d).1 := by
  intro L
  induction L with
  | nil =>
    intro i idx d _
    exact Or.inl rfl
  | cons p rest ih =>
    intro i idx d hi
    simp only [scanFar]
    split_ifs
    · rcases ih (i + 1) i (perpendicularDistanceSq p a b) (by omega) with h | h
      · rw [h]
        exact Or.inr (by simpa using hi)
      · exact Or.inr h
    · exact ih (i + 1) idx d (by omega)

/-- When the farthest-point scan keeps index `0` and the distance guard
still fires (possible only for a negative tolerance on a degenerate
segment), the source recursion calls itself on the whole path and diverges;
in the fueled model every fuel value yields `none`. -/
theorem simplifyPathF_diverge (p : List QPt) (eps d : ℚ)
    (hlen : ¬p.length < 3)
    (hsc : scanFar (p.headD (0, 0)) (p.getLastD (0, 0)) (p.tail.dropLast) 1 0 0 = (0, d))
    (hg : sqrtGtQ d eps = true) :
    ∀ fuel, simplifyPathF fuel p eps = none := by
  intro fuel
  induction fuel with
  | zero => rfl
  | succ fuel ih =>
    simp only [simplifyPathF]
    rw [if_neg hlen, hsc]
    simp only [hg, if_true, List.drop_zero, ih]
    cases simplifyPathF fuel (p.take (0 + 1)) eps <;> rfl

end Svc

/-- **C8** (counterexample): on the 3-point collinear input
`[(0,0), (1,0), (2,0)]` with tolerance `ε = −1` the source recursion never
terminates (the model returns `none` for every fuel), so there is no output
at all — refuting the claim for arbitrary tolerances. -/
theorem simplify_diverges_neg_epsilon :
    Svc.simplifyPath [(0, 0), (1, 0), (2, 0)] (-1) = none := by
  apply Svc.simplifyPathF_diverge _ _ 0
  · norm_num
  · norm_num [Svc.scanFar, Svc.perpendicularDistanceSq]
  · norm_num [Svc.sqrtGtQ]

namespace Svc

theorem simplifyPathF_shape :
    ∀ (fuel : Nat) (p : List QPt) (eps : ℚ) (out : List QPt),
      simplifyPathF fuel p eps = some out → 2 ≤ p.length →
      out.head? = p.head? ∧ out.getLast? = p.getLast? ∧ 2 ≤ out.length := by
  intro fuel
  induction fuel with
  | zero =>
    intro p eps out h _
    exact Option.noConfusion h
  | succ fuel ih =>
    intro p eps out h hlen2
    simp only [simplifyPathF] at h
    by_cases hlen : p.length < 3
    · rw [if_pos hlen] at h
      obtain rfl : p = out := Option.some.inj h
      exact ⟨rfl, rfl, hlen2⟩
    · rw [if_neg hlen] at h
      have hpne : p ≠ [] := by
        intro hc
        subst hc
        simp at hlen2
      rcases hsc : scanFar (p.headD (0, 0)) (p.getLastD (0, 0)) (p.tail.dropLast) 1 0 0
        with ⟨i, d⟩
      rw [hsc] at h
      by_cases hg : sqrtGtQ d eps = true
      · rw [if_pos hg] at h
        rcases hL : simplifyPathF fuel (p.take (i + 1)) eps with _ | L
        · simp [hL] at h
        rcases hR : simplifyPathF fuel (p.drop i) eps with _ | R
        · simp [hL, hR] at h
        simp only [hL, hR] at h
        obtain rfl : L.dropLast ++ R = out := Option.some.inj h
        rcases Nat.eq_zero_or_pos i with rfl | hi
        · exfalso
          have hd := simplifyPathF_diverge p eps d hlen hsc hg fuel
          rw [List.drop_zero, hd] at hR
          exact Option.noConfusion hR
        have hint : p.tail.dropLast.length = p.length - 2 := by
          rw [List.length_dropLast, List.length_tail]
          omega
        have hsl := scanFar_lt (p.headD (0, 0)) (p.getLastD (0, 0)) p.tail.dropLast 1 0 0
          (by omega)
        rw [hsc] at hsl
        simp only at hsl
        rw [hint] at hsl
        have hlenT : (p.take (i + 1)).length = i + 1 := by
          rw [List.length_take]
          omega
        have hlenD : (p.drop i).length = p.length - i := List.length_drop i p
        obtain ⟨hL1, hL2, hL3⟩ := ih _ eps L hL (by rw [hlenT]; omega)
        obtain ⟨hR1, hR2, hR3⟩ := ih _ eps R hR (by rw [hlenD]; omega)
        have hLd : L.dropLast ≠ [] := by
          intro hc
          have hdl := List.length_dropLast L
          rw [hc] at hdl
          simp at hdl
          omega
        have hRne : R ≠ [] := by
          intro hc
          subst hc
          simp at hR3
        refine ⟨?_, ?_, ?_⟩
        · rw [head?_append_left _ _ hLd, head?_dropLast L hL3, hL1,
            head?_take p (i + 1) (by omega)]
        · rw [getLast?_append_right _ _ hRne, hR2, getLast?_drop p i (by omega)]
        · rw [List.length_append, List.length_dropLast]
          omega
      · rw [if_neg hg] at h
        obtain rfl : [p.headD (0, 0), p.getLastD (0, 0)] = out := Option.some.inj h
        refine ⟨?_, ?_, by simp⟩
        · rw [List.head?_cons, head?_headD p hpne (0, 0)]
        · rw [getLast?_getLastD p hpne (0, 0)]
          simp [List.getLast?_cons_cons]

end Svc

namespace Svc

theorem scanFar_pos_of_guard (p : List QPt) (eps d : ℚ) (i : Nat) (heps : 0 ≤ eps)
    (hsc : scanFar (p.headD (0, 0)) (p.getLastD (0, 0)) p.tail.dropLast 1 0 0 = (i, d))
    (hg : sqrtGtQ d eps = true) : 1 ≤ i := by
  rcases scanFar_stay_or_pos (p.headD (0, 0)) (p.getLastD (0, 0)) p.tail.dropLast 1 0 0
      (by omega) with hcase | hcase
  · rw [hcase] at hsc
    obtain ⟨rfl, rfl⟩ : 0 = i ∧ 0 = d := by
      constructor <;> [exact congrArg Prod.fst hsc; exact congrArg Prod.snd hsc]
    exfalso
    unfold sqrtGtQ at hg
    simp only [Bool.or_eq_true, decide_eq_true_eq] at hg
    rcases hg with hg | hg
    · exact absurd hg (not_lt.mpr heps)
    · nlinarith [sq_nonneg eps]
  · rw [hsc] at hcase
    simpa using hcase

theorem scanFar_idx_bound (p : List QPt) (i : Nat) (d : ℚ)
    (hsc : scanFar (p.headD (0, 0)) (p.getLastD (0, 0)) p.tail.dropLast 1 0 0 = (i, d))
    (hlen : 3 ≤ p.length) : i ≤ p.length - 2 := by
  have hint : p.tail.dropLast.length = p.length - 2 := by
    rw [List.length_dropLast, List.length_tail]
    omega
  have hsl := scanFar_lt (p.headD (0, 0)) (p.getLastD (0, 0)) p.tail.dropLast 1 0 0 (by omega)
  rw [hsc] at hsl
  simp only at hsl
  omega

theorem simplifyPathF_total :
    ∀ (fuel : Nat) (p : List QPt) (eps : ℚ), 0 ≤ eps → p.length < fuel →
      (simplifyPathF fuel p eps).isSome = true := by
  intro fuel
  induction fuel with
  | zero =>
    intro p eps _ h
    omega
  | succ fuel ih =>
    intro p eps heps hlt
    simp only [simplifyPathF]
    by_cases hlen : p.length < 3
    · rw [if_pos hlen]
      rfl
    · rw [if_neg hlen]
      rcases hsc : scanFar (p.headD (0, 0)) (p.getLastD (0, 0)) p.tail.dropLast 1 0 0
        with ⟨i, d⟩
      by_cases hg : sqrtGtQ d eps = true
      · rw [if_pos hg]
        have hi := scanFar_pos_of_guard p eps d i heps hsc hg
        have hb := scanFar_idx_bound p i d hsc (by omega)
        have hL := ih (p.take (i + 1)) eps heps (by rw [List.length_take]; omega)
        have hR := ih (p.drop i) eps heps (by rw [List.length_drop]; omega)
        rcases Option.isSome_iff_exists.mp hL with ⟨L, hLs⟩
        rcases Option.isSome_iff_exists.mp hR with ⟨R, hRs⟩
        rw [hLs, hRs]
        rfl
      · rw [if_neg hg]
        rfl

theorem simplifyPathF_congr :
    ∀ (fuel fuel' : Nat) (p : List QPt) (eps : ℚ), 0 ≤ eps →
      p.length < fuel → p.length < fuel' →
      simplifyPathF fuel p eps = simplifyPathF fuel' p eps := by
  intro fuel
  induction fuel with
  | zero =>
    intro fuel' p eps _ h _
    omega
  | succ fuel ih =>
    intro fuel' p eps heps hlt hlt'
    cases fuel' with
    | zero => omega
    | succ fuel' =>
      simp only [simplifyPathF]
      by_cases hlen : p.length < 3
      · rw [if_pos hlen, if_pos hlen]
      · rw [if_neg hlen, if_neg hlen]
        rcases hsc : scanFar (p.headD (0, 0)) (p.getLastD (0, 0)) p.tail.dropLast 1 0 0
          with ⟨i, d⟩
        dsimp only
        by_cases hg : sqrtGtQ d eps = true
        · rw [if_pos hg, if_pos hg]
          have hi := scanFar_pos_of_guard p eps d i heps hsc hg
          have hb := scanFar_idx_bound p i d hsc (by omega)
          rw [ih fuel' (p.take (i + 1)) eps heps (by rw [List.length_take]; omega)
              (by rw [List.length_take]; omega),
            ih fuel' (p.drop i) eps heps (by rw [List.length_drop]; omega)
              (by rw [List.length_drop]; omega)]
        · rw [if_neg hg, if_neg hg]

end Svc

/-- **C8** (amended): for every input sequence of at least 2 points and
every nonnegative tolerance, the Douglas–Peucker simplifier terminates and
its output has at least 2 points, with the input's first and last points
preserved; for a negative tolerance the source recursion can diverge. -/
theorem simplify_preserves_endpoints (p : List Svc.QPt) (eps : ℚ)
    (heps : 0 ≤ eps) (hlen : 2 ≤ p.length) :
    ∃ out, Svc.simplifyPath p eps = some out ∧
      out.head? = p.head? ∧ out.getLast? = p.getLast? ∧ 2 ≤ out.length := by
  have ht := Svc.simplifyPathF_total (p.length + 1) p eps heps (by omega)
  rcases Option.isSome_iff_exists.mp ht with ⟨out, hout⟩
  exact ⟨out, hout, Svc.simplifyPathF_shape _ p eps out hout hlen⟩

theorem simplify_preserves_endpoints_witness :
    (0 : ℚ) ≤ 1 / 2 ∧ 2 ≤ ([(0, 0), (1, 1), (2, 0)] : List Svc.QPt).length ∧
    ∃ out, Svc.simplifyPath [(0, 0), (1, 1), (2, 0)] (1 / 2) = some out ∧
      out.head? = ([(0, 0), (1, 1), (2, 0)] : List Svc.QPt).head? ∧
      out.getLast? = ([(0, 0), (1, 1), (2, 0)] : List Svc.QPt).getLast? ∧
      2 ≤ out.length :=
  ⟨by norm_num, by norm_num,
    simplify_preserves_endpoints [(0, 0), (1, 1), (2, 0)] (1 / 2) (by norm_num) (by norm_num)⟩

/-! ### Characterization of the farthest-point scan and sublist structure
of simplifier outputs (toward C7) -/

namespace Svc

/-- `scanFar` either keeps its accumulator (everything at most `d`), or
returns the first position, counted from `i`, of a point strictly beating
`d` that no earlier point matches and no later point exceeds. -/
theorem scanFar_spec (a b : QPt) :
    ∀ (L : List QPt) (i idx : Nat) (d : ℚ),
      (scanFar a b L i idx d = (idx, d) ∧
        ∀ x ∈ L, perpendicularDistanceSq x a b ≤ d) ∨
      (∃ l₁ q l₂, L = l₁ ++ q :: l₂ ∧
        scanFar a b L i idx d = (i + l₁.length, perpendicularDistanceSq q a b) ∧
        d < perpendicularDistanceSq q a b ∧
        (∀ x ∈ l₁, perpendicularDistanceSq x a b < perpendicularDistanceSq q a b) ∧
        (∀ x ∈ l₂, perpendicularDistanceSq x a b ≤ perpendicularDistanceSq q a b)) := by
  intro L
  induction L with
  | nil =>
    intro i idx d
    exact Or.inl ⟨rfl, by simp⟩
  | cons x rest ih =>
    intro i idx d
    simp only [scanFar]
    by_cases hx : d < perpendicularDistanceSq x a b
    · rw [if_pos hx]
      rcases ih (i + 1) i (perpendicularDistanceSq x a b) with ⟨heq, hall⟩ |
        ⟨l₁, q, l₂, hsplit, heq, hlt, h₁, h₂⟩
      · right
        exact ⟨[], x, rest, rfl, by simpa using heq, hx, by simp, hall⟩
      · right
        refine ⟨x :: l₁, q, l₂, by rw [hsplit, List.cons_append], ?_, lt_trans hx hlt, ?_, h₂⟩
        · rw [heq]
          simp only [List.length_cons]
          congr 1
          omega
        · intro y hy
          rcases List.mem_cons.mp hy with rfl | hy
          · exact hlt
          · exact h₁ y hy
    · rw [if_neg hx]
      rcases ih (i + 1) idx d with ⟨heq, hall⟩ | ⟨l₁, q, l₂, hsplit, heq, hlt, h₁, h₂⟩
      · left
        refine ⟨heq, ?_⟩
        intro y hy
        rcases List.mem_cons.mp hy with rfl | hy
        · exact not_lt.mp hx
        · exact hall y hy
      · right
        refine ⟨x :: l₁, q, l₂, by rw [hsplit, List.cons_append], ?_, hlt, ?_, h₂⟩
        · rw [heq]
          simp only [List.length_cons]
          congr 1
          omega
        · intro y hy
          rcases List.mem_cons.mp hy with rfl | hy
          · exact lt_of_le_of_lt (not_lt.mp hx) hlt
          · exact h₁ y hy

theorem perpDistSq_nonneg (x a b : QPt) : 0 ≤ perpendicularDistanceSq x a b := by
  unfold perpendicularDistanceSq
  split_ifs
  · positivity
  · dsimp only
    positivity

theorem perpDistSq_self_start (a b : QPt) : perpendicularDistanceSq a a b = 0 := by
  unfold perpendicularDistanceSq
  split_ifs
  · ring_nf
  · simp

theorem perpDistSq_self_end (a b : QPt) : perpendicularDistanceSq b a b = 0 := by
  unfold perpendicularDistanceSq
  split_ifs with hdeg
  · obtain ⟨h1, h2⟩ := hdeg
    rw [sub_eq_zero] at h1 h2
    rw [h1, h2]
    ring_nf
  · have hne : (b.1 - a.1) * (b.1 - a.1) + (b.2 - a.2) * (b.2 - a.2) ≠ 0 := by
      rcases not_and_or.mp hdeg with h | h
      · have h1 : 0 < (b.1 - a.1) * (b.1 - a.1) := mul_self_pos.mpr h
        have h2 : 0 ≤ (b.2 - a.2) * (b.2 - a.2) := mul_self_nonneg _
        exact ne_of_gt (by linarith)
      · have h1 : 0 < (b.2 - a.2) * (b.2 - a.2) := mul_self_pos.mpr h
        have h2 : 0 ≤ (b.1 - a.1) * (b.1 - a.1) := mul_self_nonneg _
        exact ne_of_gt (by linarith)
    have ht : ((b.1 - a.1) * (b.1 - a.1) + (b.2 - a.2) * (b.2 - a.2)) /
        ((b.1 - a.1) * (b.1 - a.1) + (b.2 - a.2) * (b.2 - a.2)) = 1 := div_self hne
    simp only [ht]
    norm_num

end Svc

/-- Splitting one list as `m₁ ++ q :: m₂` in two ways: either the split
points coincide, or each split's middle element lies on a definite side of
the other's. -/
theorem append_cons_eq_append_cons {α : Type} :
    ∀ {m₁ m₁' m₂ m₂' : List α} {q q' : α},
      m₁ ++ q :: m₂ = m₁' ++ q' :: m₂' →
      (m₁ = m₁' ∧ q = q' ∧ m₂ = m₂') ∨
      (m₁.length < m₁'.length ∧ q ∈ m₁' ∧ q' ∈ m₂) ∨
      (m₁'.length < m₁.length ∧ q' ∈ m₁ ∧ q ∈ m₂') := by
  intro m₁
  induction m₁ with
  | nil =>
    intro m₁' m₂ m₂' q q' h
    cases m₁' with
    | nil =>
      simp only [List.nil_append, List.cons.injEq] at h
      exact Or.inl ⟨rfl, h.1, h.2⟩
    | cons x xs =>
      simp only [List.nil_append, List.cons_append, List.cons.injEq] at h
      refine Or.inr (Or.inl ⟨by simp, ?_, ?_⟩)
      · rw [h.1]
        exact List.mem_cons_self _ _
      · rw [h.2]
        exact List.mem_append_right _ (List.mem_cons_self _ _)
  | cons y ys ih =>
    intro m₁' m₂ m₂' q q' h
    cases m₁' with
    | nil =>
      simp only [List.nil_append, List.cons_append, List.cons.injEq] at h
      refine Or.inr (Or.inr ⟨by simp, ?_, ?_⟩)
      · rw [← h.1]
        exact List.mem_cons_self _ _
      · rw [← h.2]
        exact List.mem_append_right _ (List.mem_cons_self _ _)
    | cons x xs =>
      simp only [List.cons_append, List.cons.injEq] at h
      rcases ih h.2 with ⟨ha, hb, hc⟩ | ⟨ha, hb, hc⟩ | ⟨ha, hb, hc⟩
      · exact Or.inl ⟨by rw [h.1, ha], hb, hc⟩
      · exact Or.inr (Or.inl ⟨by simpa using ha, List.mem_cons_of_mem _ hb, hc⟩)
      · exact Or.inr (Or.inr ⟨by simpa using ha, List.mem_cons_of_mem _ hb, hc⟩)

theorem headLast_sublist {α : Type} (p : List α) (x : α) (h : 2 ≤ p.length) :
    ([p.headD x, p.getLastD x] : List α).Sublist p := by
  cases p with
  | nil => simp at h
  | cons a as =>
    have hne : as ≠ [] := by
      intro hc
      subst hc
      simp at h
    have hlast : (a :: as).getLastD x = as.getLast hne := by
      rw [List.getLastD_eq_getLast?, List.getLast?_eq_getLast _ (by simp),
        List.getLast_cons hne]
      rfl
    simp only [List.headD_cons, hlast]
    apply List.Sublist.cons₂
    rw [List.singleton_sublist]
    exact List.getLast_mem hne

namespace Svc

theorem simplifyPathF_sublist :
    ∀ (fuel : Nat) (p : List QPt) (eps : ℚ) (out : List QPt),
      simplifyPathF fuel p eps = some out → out.Sublist p := by
  intro fuel
  induction fuel with
  | zero =>
    intro p eps out h
    exact Option.noConfusion h
  | succ fuel ih =>
    intro p eps out h
    simp only [simplifyPathF] at h
    by_cases hlen : p.length < 3
    · rw [if_pos hlen] at h
      obtain rfl : p = out := Option.some.inj h
      exact List.Sublist.refl p
    · rw [if_neg hlen] at h
      rcases hsc : scanFar (p.headD (0, 0)) (p.getLastD (0, 0)) p.tail.dropLast 1 0 0
        with ⟨i, d⟩
      rw [hsc] at h
      by_cases hg : sqrtGtQ d eps = true
      · rw [if_pos hg] at h
        rcases hL : simplifyPathF fuel (p.take (i + 1)) eps with _ | L
        · simp [hL] at h
        rcases hR : simplifyPathF fuel (p.drop i) eps with _ | R
        · simp [hL, hR] at h
        simp only [hL, hR] at h
        obtain rfl : L.dropLast ++ R = out := Option.some.inj h
        rcases Nat.eq_zero_or_pos i with rfl | hi
        · exfalso
          have hd := simplifyPathF_diverge p eps d hlen hsc hg fuel
          rw [List.drop_zero, hd] at hR
          exact Option.noConfusion hR
        have hb := scanFar_idx_bound p i d hsc (by omega)
        have hip : i < p.length := by omega
        have hlenT : (p.take (i + 1)).length = i + 1 := by
          rw [List.length_take]
          omega
        obtain ⟨hL1, hL2, hL3⟩ := simplifyPathF_shape fuel _ eps L hL (by rw [hlenT]; omega)
        have hLsub := ih _ eps L hL
        have hRsub := ih _ eps R hR
        have htake : p.take (i + 1) = p.take i ++ [p[i]] := by
          rw [List.take_succ, List.getElem?_eq_getElem hip]
          rfl
        have hLlast : L.getLast? = some p[i] := by
          rw [hL2, htake, List.getLast?_concat]
        have hLne : L ≠ [] := by
          intro hc
          subst hc
          simp at hL3
        have hLconcat : L.dropLast ++ [p[i]] = L := by
          have hcc := List.dropLast_append_getLast hLne
          rw [List.getLast?_eq_getLast _ hLne] at hLlast
          obtain hlast := Option.some.inj hLlast
          rw [hlast] at hcc
          exact hcc
        have hLd : L.dropLast.Sublist (p.take i) := by
          have h1 : (L.dropLast ++ [p[i]]).Sublist (p.take i ++ [p[i]]) := by
            rw [hLconcat, ← htake]
            exact hLsub
          exact (List.append_sublist_append_right _).mp h1
        have hfin := List.Sublist.append hLd hRsub
        rwa [List.take_append_drop] at hfin
      · rw [if_neg hg] at h
        obtain rfl : [p.headD (0, 0), p.getLastD (0, 0)] = out := Option.some.inj h
        exact headLast_sublist p (0, 0) (by omega)

end Svc

theorem list_decomp {α : Type} (p : List α) (x : α) (h : 2 ≤ p.length) :
    p = p.headD x :: (p.tail.dropLast ++ [p.getLastD x]) := by
  cases p with
  | nil => simp at h
  | cons a as =>
    have hne : as ≠ [] := by
      intro hc
      subst hc
      simp at h
    have hlast : (a :: as).getLastD x = as.getLast hne := by
      rw [List.getLastD_eq_getLast?, List.getLast?_eq_getLast _ (by simp),
        List.getLast_cons hne]
      rfl
    simp only [List.headD_cons, List.tail_cons, hlast]
    congr 1
    exact (List.dropLast_append_getLast hne).symm

namespace Svc

/-- Core of the idempotence claim: any `some` output of `simplifyPath` with
a nonnegative tolerance is itself a fixed point of `simplifyPath` at the
same tolerance. -/
theorem simplifyPath_fixpoint :
    ∀ (N : Nat) (p : List QPt) (eps : ℚ) (out : List QPt), p.length ≤ N → 0 ≤ eps →
      simplifyPath p eps = some out → simplifyPath out eps = some out := by
  intro N
  induction N with
  | zero =>
    intro p eps out hp heps h
    have hnil : p = [] := List.length_eq_zero.mp (by omega)
    subst hnil
    rw [simplifyPath] at h
    simp only [List.length_nil, simplifyPathF] at h
    rw [if_pos (by simp)] at h
    obtain rfl : ([] : List QPt) = out := Option.some.inj h
    rw [simplifyPath]
    simp only [List.length_nil, simplifyPathF]
    rw [if_pos (by simp)]
  | succ N ih =>
    intro p eps out hp heps h
    rw [simplifyPath] at h
    simp only [simplifyPathF] at h
    set a := p.headD (0, 0) with ha
    set b := p.getLastD (0, 0) with hb
    by_cases hlen : p.length < 3
    · rw [if_pos hlen] at h
      obtain rfl : p = out := Option.some.inj h
      rw [simplifyPath]
      simp only [simplifyPathF]
      rw [if_pos hlen]
    · rw [if_neg hlen] at h
      rcases hsc : scanFar a b p.tail.dropLast 1 0 0 with ⟨i, d⟩
      rw [hsc] at h
      by_cases hg : sqrtGtQ d eps = true
      case neg =>
        rw [if_neg hg] at h
        obtain rfl : [a, b] = out := Option.some.inj h
        rw [simplifyPath]
        simp only [simplifyPathF]
        rw [if_pos (by simp)]
      case pos =>
      rw [if_pos hg] at h
      rcases hL : simplifyPathF p.length (p.take (i + 1)) eps with _ | L
      · simp [hL] at h
      rcases hR : simplifyPathF p.length (p.drop i) eps with _ | R
      · simp [hL, hR] at h
      simp only [hL, hR] at h
      obtain rfl : L.dropLast ++ R = out := Option.some.inj h
      rcases Nat.eq_zero_or_pos i with rfl | hi
      · exfalso
        have hd := simplifyPathF_diverge p eps d hlen hsc hg p.length
        rw [List.drop_zero, hd] at hR
        exact Option.noConfusion hR
      have hb2 := scanFar_idx_bound p i d hsc (by omega)
      have hip : i < p.length := by omega
      have hlenT : (p.take (i + 1)).length = i + 1 := by
        rw [List.length_take]
        omega
      have hlenD : (p.drop i).length = p.length - i := List.length_drop i p
      obtain ⟨hL1, hL2, hL3⟩ := simplifyPathF_shape _ _ eps L hL (by rw [hlenT]; omega)
      obtain ⟨hR1, hR2, hR3⟩ := simplifyPathF_shape _ _ eps R hR (by rw [hlenD]; omega)
      have hLsub := simplifyPathF_sublist _ _ eps L hL
      have hRsub := simplifyPathF_sublist _ _ eps R hR
      have hLfix : simplifyPath L eps = some L := by
        apply ih (p.take (i + 1)) eps L (by rw [hlenT]; omega) heps
        rw [simplifyPath, hlenT,
          simplifyPathF_congr (i + 1 + 1) p.length _ eps heps (by rw [hlenT]; omega)
            (by rw [hlenT]; omega)]
        exact hL
      have hRfix : simplifyPath R eps = some R := by
        apply ih (p.drop i) eps R (by rw [hlenD]; omega) heps
        rw [simplifyPath,
          simplifyPathF_congr ((p.drop i).length + 1) p.length _ eps heps (by omega)
            (by rw [hlenD]; omega)]
        exact hR
      rcases scanFar_spec a b p.tail.dropLast 1 0 0 with ⟨heq0, _⟩ |
        ⟨l₁, q, l₂, hIsplit, heq, hd0, hl₁, hl₂⟩
      · rw [heq0] at hsc
        have : (0 : Nat) = i := congrArg Prod.fst hsc
        omega
      rw [heq] at hsc
      have hii : i = 1 + l₁.length := (congrArg Prod.fst hsc).symm
      have hdd : d = perpendicularDistanceSq q a b := (congrArg Prod.snd hsc).symm
      have hDq : 0 < perpendicularDistanceSq q a b := by
        rw [← hdd]
        unfold sqrtGtQ at hg
        simp only [Bool.or_eq_true, decide_eq_true_eq] at hg
        rcases hg with hg' | hg'
        · exact absurd hg' (not_lt.mpr heps)
        · nlinarith [sq_nonneg eps]
      have hdecomp : p = a :: (p.tail.dropLast ++ [b]) := list_decomp p (0, 0) (by omega)
      have hpAB : p = (a :: l₁) ++ (q :: (l₂ ++ [b])) := by
        conv_lhs => rw [hdecomp, hIsplit]
        simp [List.append_assoc]
      have hA : (a :: l₁).length = i := by
        simp only [List.length_cons]
        omega
      have htake : p.take (i + 1) = (a :: l₁) ++ [q] := by
        conv_lhs => rw [hpAB]
        rw [show i + 1 = (a :: l₁).length + 1 by omega, List.take_append]
        rfl
      have hdrop : p.drop i = q :: (l₂ ++ [b]) := by
        conv_lhs => rw [hpAB]
        rw [show i = (a :: l₁).length + 0 by omega, List.drop_append]
        rfl
      have hLhead : L.head? = some a := by
        rw [hL1, htake]
        rfl
      have hLlast : L.getLast? = some q := by
        rw [hL2, htake, List.getLast?_concat]
      have hRhead : R.head? = some q := by
        rw [hR1, hdrop]
        rfl
      have hRlast : R.getLast? = some b := by
        rw [hR2, hdrop, show q :: (l₂ ++ [b]) = (q :: l₂) ++ [b] by simp,
          List.getLast?_concat]
      obtain ⟨Lt, rfl⟩ : ∃ ys, L = a :: ys := by
        cases L with
        | nil => simp at hL3
        | cons y ys =>
          have hy : y = a := by
            have h2 : some y = some a := by simpa using hLhead
            exact Option.some.inj h2
          exact ⟨ys, by rw [hy]⟩
      obtain ⟨Rt, rfl⟩ : ∃ ys, R = q :: ys := by
        cases R with
        | nil => simp at hR3
        | cons y ys =>
          have hy : y = q := by
            have h2 : some y = some q := by simpa using hRhead
            exact Option.some.inj h2
          exact ⟨ys, by rw [hy]⟩
      have hLt : Lt ≠ [] := by
        intro hc
        subst hc
        simp at hL3
      have hRt : Rt ≠ [] := by
        intro hc
        subst hc
        simp at hR3
      have hLtlen : 1 ≤ Lt.length := by
        cases Lt with
        | nil => exact absurd rfl hLt
        | cons _ _ => simp
      have hRtlen : 1 ≤ Rt.length := by
        cases Rt with
        | nil => exact absurd rfl hRt
        | cons _ _ => simp
      have hgl : (a :: Lt).getLast (by simp) = q := by
        have hq := List.getLast?_eq_getLast (a :: Lt) (by simp)
        rw [hq] at hLlast
        exact Option.some.inj hLlast
      have hLeq : (a :: Lt) = (a :: Lt).dropLast ++ [q] := by
        conv_lhs => rw [← List.dropLast_append_getLast (l := a :: Lt) (by simp)]
        rw [hgl]
      have hout : (a :: Lt).dropLast ++ (q :: Rt) = a :: (Lt.dropLast ++ (q :: Rt)) := by
        rw [List.dropLast_cons_of_ne_nil hLt, List.cons_append]
      have houthead : ((a :: Lt).dropLast ++ (q :: Rt)).headD (0, 0) = a := by
        rw [hout]
        rfl
      have houtlast : ((a :: Lt).dropLast ++ (q :: Rt)).getLastD (0, 0) = b := by
        rw [List.getLastD_eq_getLast?, getLast?_append_right _ _ (by simp), hRlast]
        rfl
      have houtint : ((a :: Lt).dropLast ++ (q :: Rt)).tail.dropLast
          = Lt.dropLast ++ (q :: Rt.dropLast) := by
        rw [hout, List.tail_cons, List.dropLast_append_of_ne_nil _ (by simp),
          List.dropLast_cons_of_ne_nil hRt]
      have houtlen : ((a :: Lt).dropLast ++ (q :: Rt)).length = Lt.length + 1 + Rt.length := by
        rw [List.length_append, List.dropLast_cons_of_ne_nil hLt]
        simp only [List.length_cons, List.length_dropLast]
        omega
      have hm₁ : ∀ x ∈ Lt.dropLast,
          perpendicularDistanceSq x a b < perpendicularDistanceSq q a b := by
        intro x hx
        have hxL : x ∈ (a :: Lt) := List.mem_cons_of_mem _ ((List.dropLast_sublist Lt).subset hx)
        have hxT := hLsub.subset hxL
        rw [htake] at hxT
        rcases List.mem_append.mp hxT with hmem | hmem
        · rcases List.mem_cons.mp hmem with rfl | hmem
          · rw [perpDistSq_self_start]
            exact hDq
          · exact hl₁ x hmem
        · exfalso
          obtain rfl : x = q := by simpa using hmem
          have hq1 : x ∈ (a :: Lt).dropLast := by
            rw [List.dropLast_cons_of_ne_nil hLt]
            exact List.mem_cons_of_mem _ hx
          have hcountL : 2 ≤ List.count x (a :: Lt) := by
            conv_rhs => rw [hLeq]
            rw [List.count_append]
            have h1 : 0 < List.count x ((a :: Lt).dropLast) := List.count_pos_iff.mpr hq1
            have h2 : List.count x [x] = 1 := by simp
            omega
          have hcountT : 2 ≤ List.count x (p.take (i + 1)) :=
            le_trans hcountL (hLsub.count_le x)
          rw [htake, List.count_append] at hcountT
          have h3 : List.count x [x] = 1 := by simp
          have hqm : x ∈ (a :: l₁) := List.count_pos_iff.mp (by omega)
          rcases List.mem_cons.mp hqm with hqa | hql
          · rw [hqa, perpDistSq_self_start] at hDq
            exact lt_irrefl 0 hDq
          · exact absurd (hl₁ x hql) (lt_irrefl _)
      have hm₂ : ∀ x ∈ Rt.dropLast,
          perpendicularDistanceSq x a b ≤ perpendicularDistanceSq q a b := by
        intro x hx
        have hxR : x ∈ (q :: Rt) := List.mem_cons_of_mem _ ((List.dropLast_sublist Rt).subset hx)
        have hxT := hRsub.subset hxR
        rw [hdrop] at hxT
        rcases List.mem_cons.mp hxT with rfl | hmem
        · exact le_refl _
        · rcases List.mem_append.mp hmem with hmem2 | hmem2
          · exact hl₂ x hmem2
          · obtain rfl : x = b := by simpa using hmem2
            rw [perpDistSq_self_end]
            exact le_of_lt hDq
      rcases scanFar_spec a b (Lt.dropLast ++ (q :: Rt.dropLast)) 1 0 0 with ⟨heq', hall'⟩ |
        ⟨m₁', q', m₂', hsplit', heq', hd0', h₁', h₂'⟩
      · exfalso
        have := hall' q (by simp)
        linarith [hDq]
      rcases append_cons_eq_append_cons hsplit' with ⟨hma, hqq, hmb⟩ |
        ⟨hlt', hq1, hq2⟩ | ⟨hlt', hq1, hq2⟩
      · -- the two splits coincide
        subst hma
        subst hqq
        subst hmb
        rw [simplifyPath]
        simp only [simplifyPathF]
        rw [if_neg (by rw [houtlen]; omega)]
        rw [houthead, houtlast, houtint, heq']
        dsimp only
        rw [if_pos (by rw [← hdd]; exact hg)]
        have htake2 : ((a :: Lt).dropLast ++ (q :: Rt)).take (1 + Lt.dropLast.length + 1)
            = a :: Lt := by
          rw [show 1 + Lt.dropLast.length + 1 = ((a :: Lt).dropLast).length + 1 by
            rw [List.dropLast_cons_of_ne_nil hLt]
            simp only [List.length_cons, List.length_dropLast]
            omega, List.take_append]
          rw [show (q :: Rt).take 1 = [q] from rfl]
          exact hLeq.symm
        have hdrop2 : ((a :: Lt).dropLast ++ (q :: Rt)).drop (1 + Lt.dropLast.length)
            = q :: Rt := by
          rw [show 1 + Lt.dropLast.length = ((a :: Lt).dropLast).length + 0 by
            rw [List.dropLast_cons_of_ne_nil hLt]
            simp only [List.length_cons, List.length_dropLast]
            omega, List.drop_append]
          rfl
        rw [htake2, hdrop2]
        have hcL : simplifyPathF (((a :: Lt).dropLast ++ (q :: Rt)).length) (a :: Lt) eps
            = some (a :: Lt) := by
          rw [simplifyPathF_congr _ ((a :: Lt).length + 1) _ eps heps
            (by rw [houtlen]; simp only [List.length_cons]; omega) (by omega)]
          rw [← simplifyPath]
          exact hLfix
        have hcR : simplifyPathF (((a :: Lt).dropLast ++ (q :: Rt)).length) (q :: Rt) eps
            = some (q :: Rt) := by
          rw [simplifyPathF_congr _ ((q :: Rt).length + 1) _ eps heps
            (by rw [houtlen]; simp only [List.length_cons]; omega) (by omega)]
          rw [← simplifyPath]
          exact hRfix
        rw [hcL, hcR]
      · exfalso
        have hx1 := h₁' q hq1
        have hx2 := hm₂ q' hq2
        linarith
      · exfalso
        have hx1 := hm₁ q' hq1
        have hx2 := h₂' q hq2
        linarith

end Svc

/-- **C7**: Douglas–Peucker simplification as implemented in
`services/pathfinding.go` (`simplifyPath`) is idempotent for every positive
tolerance ε: if simplifying a point sequence succeeds and returns `out`, then
simplifying `out` again with the same ε returns `out` unchanged. -/
theorem simplify_idempotent (p : List Svc.QPt) (eps : ℚ) (heps : 0 < eps)
    (out : List Svc.QPt) (h : Svc.simplifyPath p eps = some out) :
    Svc.simplifyPath out eps = some out :=
  Svc.simplifyPath_fixpoint p.length p eps out (le_refl _) (le_of_lt heps) h

/-- Witness for C7: simplifying `[(0,0),(1,1),(2,0)]` with ε = 1/2 keeps all
three points (the middle point is farther than ε from the chord), and
re-simplifying that output returns it unchanged. -/
theorem simplify_idempotent_witness :
    (0 : ℚ) < 1/2 ∧
    Svc.simplifyPath [(0,0),(1,1),(2,0)] (1/2) = some [(0,0),(1,1),(2,0)] :=
  ⟨by norm_num,
   simplify_idempotent [(0,0),(1,1),(2,0)] (1/2) (by norm_num) [(0,0),(1,1),(2,0)]
     (by norm_num [Svc.simplifyPath, Svc.simplifyPathF, Svc.scanFar,
        Svc.perpendicularDistanceSq, Svc.sqrtGtQ])⟩

end Sion
